import Mathlib

/-!
Verification of the artifactdb-identifiers library (modules `aid.py` and
`gprn.py`).  Strings are modelled as `List Char`; every Python function used
by the claims is translated into an executable Lean definition operating on
that representation.  Python exceptions are modelled with `Except GErr`.
-/

namespace ArtifactDB

/-- Strings are modelled as lists of characters. -/
abbrev LC := List Char

/-! ## Basic string utilities mirroring the Python built-ins used. -/

/-- Python `s.split(c)` for a single-character separator: always returns a
non-empty list; `"".split(c) == [""]`. -/
def splitChar (c : Char) : LC → List LC
  | [] => [[]]
  | x :: rest =>
    match splitChar c rest with
    | [] => [[]]
    | h :: t => if x = c then [] :: h :: t else (x :: h) :: t

/-- Python `":".join(parts)` (generalised separator). -/
def joinChar (c : Char) : List LC → LC
  | [] => []
  | [x] => x
  | x :: y :: t => x ++ c :: joinChar c (y :: t)

/-- `s.split(":")`. -/
def splitOnColon (s : LC) : List LC := splitChar ':' s

/-- `":".join(parts)`. -/
def joinColon (l : List LC) : LC := joinChar ':' l

/-- Python `s.rstrip(c)` for a single character. -/
def rstripChar (c : Char) (s : LC) : LC :=
  ((s.reverse).dropWhile (fun x => x = c)).reverse

/-- Python `s.strip(c)` for a single character (both ends). -/
def stripChar (c : Char) (s : LC) : LC :=
  rstripChar c (s.dropWhile (fun x => x = c))

/-- Split at the first occurrence of `c`: `some (before, after)`. -/
def splitFirstAt (c : Char) : LC → Option (LC × LC)
  | [] => none
  | x :: xs =>
    if x = c then some ([], xs)
    else (splitFirstAt c xs).map (fun p => (x :: p.1, p.2))

/-- Split at the last occurrence of `c` (Python `s.rsplit(c, 1)` when `c ∈ s`). -/
def rsplitLastAt (c : Char) : LC → Option (LC × LC)
  | [] => none
  | x :: xs =>
    match rsplitLastAt c xs with
    | some p => some (x :: p.1, p.2)
    | none => if x = c then some ([], xs) else none

/-- Split at the `n`-th occurrence (1-based) of `c`. -/
def splitNthAt (c : Char) : Nat → LC → Option (LC × LC)
  | 0, _ => none
  | 1, s => splitFirstAt c s
  | n + 2, s =>
    match splitFirstAt c s with
    | none => none
    | some p => (splitNthAt c (n + 1) p.2).map (fun q => (p.1 ++ c :: q.1, q.2))

/-- Truthiness of an optional string, as Python sees `None` and `""`. -/
def truthyO : Option LC → Bool
  | none => false
  | some s => s ≠ []

/-- Characters accepted by the regex class `[.\w\d-]` (ASCII reading). -/
def wordChar (c : Char) : Bool :=
  c.isAlphanum || c = '_' || c = '.' || c = '-'

/-- Python's regex `.` does not match a newline, so a match of a dot-based
pattern anchored at the start is confined to the newline-free prefix of the
subject: every character class used here satisfies this predicate. -/
def notNL (c : Char) : Bool := c ≠ '\n'

/-- First occurrence of `'@'` that is immediately followed by a `wordChar`
(the separator chosen by the lazy regex `(.*?)@([.\w\d-]+)`). -/
def findAtSep : LC → Option (LC × LC)
  | [] => none
  | x :: xs =>
    if x = '@' && ((xs.head?.map wordChar).getD false) then some ([], xs)
    else (findAtSep xs).map (fun p => (x :: p.1, p.2))

/-- Last occurrence of `'@'` that is immediately followed by a `wordChar`
(the separator chosen by the greedy regex `(.*)@([.\w\d-]+)`). -/
def findAtSepLast : LC → Option (LC × LC)
  | [] => none
  | x :: xs =>
    match findAtSepLast xs with
    | some p => some (x :: p.1, p.2)
    | none =>
      if x = '@' && ((xs.head?.map wordChar).getD false) then some ([], xs)
      else none

/-- Keep first occurrences, dropping later duplicates (distinct keys of a
Python dict in insertion order; its length is `len(set(l))`). -/
def pyDedupGo (seen : List LC) : List LC → List LC
  | [] => []
  | x :: xs => if x ∈ seen then pyDedupGo seen xs else x :: pyDedupGo (x :: seen) xs

def pyDedup (l : List LC) : List LC := pyDedupGo [] l

/-! ## Error model

One error type covering the exception classes of both modules, plus the
uncaught built-in exceptions that the code can raise, plus a marker for fuel
exhaustion of the recursion model (proved unreachable below). -/

inductive GErr where
  | formatError
  | unsupportedTypeId
  | noSuchGPRN
  | gprnError
  | malformedId
  | malformedKey
  | attributeError
  | keyError
  | indexError
  | typeError
  | outOfFuel
deriving DecidableEq, Repr

/-! ## Data model -/

/-- Result of `unpack_id` (all three components non-empty by its asserts). -/
structure Aid where
  project_id : LC
  path : LC
  version : LC
deriving DecidableEq, Repr

/-- A Python dict over the keys `project_id` / `path` / `version`, where
`none` models an absent key.  Its Python truthiness is `some` on any field. -/
structure PyDict where
  project_id : Option LC
  path : Option LC
  version : Option LC
deriving DecidableEq, Repr

/-- The empty dict `{}`. -/
def emptyDict : PyDict := ⟨none, none, none⟩

/-- What `parse_resource_id` can return: either the input string unchanged or
a dict. -/
inductive ResId where
  | rstr (s : LC)
  | rdict (d : PyDict)
deriving DecidableEq, Repr

/-- Python truthiness of a `ResId` value. -/
def ResId.truthy : ResId → Bool
  | .rstr s => s ≠ []
  | .rdict d => d ≠ emptyDict

/-- Result of `parse` — the GPRN dict with its five keys. -/
structure ParsedGPRN where
  environment : LC
  service : Option LC
  placeholder : Option LC
  typeId : Option LC
  resourceId : Option LC
deriving DecidableEq, Repr

/-- A lineage entry `{'type': t, 'gprn': g}` built by `prepare_parents_list`. -/
structure Entry where
  type : Option LC
  gprn : LC
deriving DecidableEq, Repr

/-- Result of `parse_key`. -/
structure KeyParts where
  project_id : LC
  version : LC
  metapath : LC
deriving DecidableEq, Repr

/-! ## Tokens -/

def gprnTok : LC := "gprn".toList
def prdTok : LC := "prd".toList
def artifactTok : LC := "artifact".toList
def projectTok : LC := "project".toList
def docTok : LC := "doc".toList
def changelogTok : LC := "changelog".toList
def backupTok : LC := "backup".toList
def rootTok : LC := "root".toList
def environmentTok : LC := "environment".toList
def serviceTok : LC := "service".toList
def projectsTok : LC := "projects".toList
def versionTok : LC := "version".toList

def VALID_TYPE_IDS : List LC := [artifactTok, projectTok, docTok, changelogTok, backupTok]

/-! ## aid.py -/

/-- The three-group split of `re.match(r"^/?(.*?)/(.*?)/(.*)", key)` without
the optional leading slash: two lazy groups each ending at the next `/`, the
third group taking the rest. -/
def keyGroups (s : LC) : Option (LC × LC × LC) :=
  match splitFirstAt '/' s with
  | none => none
  | some p =>
    match splitFirstAt '/' p.2 with
    | none => none
    | some q => some (p.1, q.1, q.2)

/-- `parse_key(key)`.  The regex `^/?(.*?)/(.*?)/(.*)` first tries to consume
a leading `/` and backtracks to an empty `/?` when the remainder lacks two
slashes.  `.` does not match a newline, so the whole match — both slashes and
the greedy third group included — lives inside the newline-free prefix of the
key.  The `isinstance(..., str)` checks of the source are vacuous (a matched
group is always a string), so no emptiness check happens and the errors list
stays empty. -/
def parse_key (key : LC) : Except GErr KeyParts :=
  let key1 := key.takeWhile notNL
  let attempt :=
    match key1 with
    | '/' :: rest =>
      match keyGroups rest with
      | some g => some g
      | none => keyGroups key1
    | _ => keyGroups key1
  match attempt with
  | none => .error .malformedKey
  | some (g1, g2, g3) => .ok ⟨g1, g2, g3⟩

/-- `unpack_id(_id)`.  The non-`gprn:` branch models
`match(r"^(.*?):(.*?)@([.\w\d-]+)", _id)`: lazy project up to the first `:`,
lazy path up to the first `@` followed by a word character, greedy version run
(no end anchor, trailing input is ignored).  The `gprn:`-prefixed branch
models `match(r"^(gprn(:.*?){5}.*?):(.*)@([.\w\d-]+)", _id)`: lazy project up
to the 6th `:`, greedy path up to the last `@` followed by a word character.
Because `.` does not match a newline, every group of either pattern lives
inside the newline-free prefix of the input — an id whose project or path
part would have to span a `\n` does not match at all.  A failed match
(`AttributeError`) and a failed assert both raise `MalformedID`. -/
def unpack_id (id0 : LC) : Except GErr Aid :=
  let id1 := id0.takeWhile notNL
  let split? :=
    if ("gprn:".toList).isPrefixOf id0 then
      match splitNthAt ':' 6 id1 with
      | none => none
      | some (pid, rest) =>
        match findAtSepLast rest with
        | none => none
        | some (path, afterAt) => some (pid, path, afterAt)
    else
      match splitFirstAt ':' id1 with
      | none => none
      | some (pid, rest) =>
        match findAtSep rest with
        | none => none
        | some (path, afterAt) => some (pid, path, afterAt)
  match split? with
  | none => .error .malformedId
  | some (pid, path, afterAt) =>
    let ver := afterAt.takeWhile wordChar
    if pid = [] ∨ path = [] ∨ ver = [] then .error .malformedId
    else .ok ⟨pid, path, ver⟩

/-- `_get_parts` + `pack_id`: `f"{project_id}:{path}@{version}"`, raising
`MalformedID` when a key is missing. -/
def pack_id (parts : PyDict) : Except GErr LC :=
  match parts.project_id, parts.path, parts.version with
  | some pid, some path, some ver => .ok (pid ++ ':' :: path ++ '@' :: ver)
  | _, _, _ => .error .malformedId

/-- `pack_id(unpack_id(s))` — the AID round trip of the spec. -/
def aidRoundTrip (s : LC) : Except GErr LC :=
  (unpack_id s).bind (fun a => pack_id ⟨some a.project_id, some a.path, some a.version⟩)

/-! ## gprn.py -/

/-- The token-consuming part of `parse`, applied to `gprn.split(":")`.
Mirrors the source exactly: prefix must be `"gprn"`; a two-token input
returns early with the second token as environment (verbatim, even when
empty); otherwise environment defaults to `"prd"` when its token is empty,
service is mandatory and must be non-empty, placeholder and type-id are set
only when non-empty, and the remaining tokens are rejoined with `:` into the
resource-id, which requires a type-id. -/
def parseParts : List LC → Except GErr ParsedGPRN
  | [] => .error .formatError
  | p0 :: rest =>
    if p0 ≠ gprnTok then .error .formatError
    else
      match rest with
      | [e] => .ok ⟨e, none, none, none, none⟩
      | [] => .error .formatError
      | e :: s :: restC =>
        let environment := if e = [] then prdTok else e
        if s = [] then .error .formatError
        else
          match restC with
          | [] => .ok ⟨environment, some s, none, none, none⟩
          | [a] => .ok ⟨environment, some s, (if a = [] then none else some a), none, none⟩
          | [a, b] =>
            .ok ⟨environment, some s, (if a = [] then none else some a),
                 (if b = [] then none else some b), none⟩
          | a :: b :: rest5 =>
            let res := joinColon rest5
            let tid : Option LC := if b = [] then none else some b
            if res = [] then
              .ok ⟨environment, some s, (if a = [] then none else some a), tid, none⟩
            else if tid = none then .error .formatError
            else .ok ⟨environment, some s, (if a = [] then none else some a), tid, some res⟩

/-- `parse(gprn)`. -/
def parse (gprn : LC) : Except GErr ParsedGPRN :=
  parseParts (splitOnColon gprn)

/-- `parse_resource_id(type_id, res_id)`.  For `artifact` it delegates to
`unpack_id`; for `project`/`changelog` it splits on the last `@` when
present; any other type-id returns the (truthy) string unchanged; a falsy
`res_id` yields `{}`. -/
def parse_resource_id (type_id : Option LC) (res_id : Option LC) : Except GErr ResId :=
  match res_id with
  | some r =>
    if r = [] then .ok (.rdict emptyDict)
    else if type_id = some artifactTok then
      (unpack_id r).map (fun a => .rdict ⟨some a.project_id, some a.path, some a.version⟩)
    else if type_id = some projectTok ∨ type_id = some changelogTok then
      match rsplitLastAt '@' r with
      | some p => .ok (.rdict ⟨some p.1, none, some p.2⟩)
      | none => .ok (.rdict ⟨some r, none, none⟩)
    else .ok (.rstr r)
  | none => .ok (.rdict emptyDict)

/-- `generate(dgprn)`.  Returns the produced string (or `GPRNError`) together
with the post-state of the argument dict: the source mutates
`dgprn["environment"]` to `""` when it equals `"prd"` before anything else.
A missing service makes `":".join` raise `TypeError`, re-raised as
`GPRNError`. -/
def generate (dg : ParsedGPRN) : Except GErr LC × ParsedGPRN :=
  let dg1 := if dg.environment = prdTok then { dg with environment := [] } else dg
  match dg1.service with
  | none => (.error .gprnError, dg1)
  | some svc =>
    let slotEnv := if dg1.environment ≠ [] then dg1.environment else []
    let slotPh := if truthyO dg1.placeholder then dg1.placeholder.getD [] else []
    let slotTid := if truthyO dg1.typeId then dg1.typeId.getD [] else []
    let slotRid := if truthyO dg1.resourceId then dg1.resourceId.getD [] else []
    (.ok (rstripChar ':' (joinColon [gprnTok, slotEnv, svc, slotPh, slotTid, slotRid])), dg1)

/-- `validate(gprn, gprn_cfg=None)`.  Parses, checks the type-id against
`VALID_TYPE_IDS`, re-parses the resource-id for its side effect (errors
propagate), optionally checks service/environment against a config pair
(compared against the prd-normalised environment), and returns the original
parse result untouched. -/
def validate (gprn : LC) (gprn_cfg : Option (LC × LC) := none) : Except GErr ParsedGPRN := do
  let parsed ← parse gprn
  let envNorm := if parsed.environment = prdTok then [] else parsed.environment
  match parsed.typeId with
  | some t =>
    if t = [] then matchCfg parsed envNorm
    else if t ∉ VALID_TYPE_IDS then .error .unsupportedTypeId
    else if truthyO parsed.resourceId then do
      let _ ← parse_resource_id (some t) parsed.resourceId
      matchCfg parsed envNorm
    else matchCfg parsed envNorm
  | none => matchCfg parsed envNorm
where
  matchCfg (parsed : ParsedGPRN) (envNorm : LC) : Except GErr ParsedGPRN :=
    match gprn_cfg with
    | none => .ok parsed
    | some cfg =>
      if parsed.service ≠ some cfg.1 then .error .gprnError
      else if envNorm ≠ cfg.2 then .error .gprnError
      else .ok parsed

/-- The per-parent classification step of `prepare_parents_list`: infer a
structural tag and thread the `found_version` flag (set only in the
`project` branch). -/
def classify (parent : LC) (foundVersion : Bool) : Except GErr (Option LC × Bool) :=
  let parts := splitOnColon parent
  if parts.length ≤ 2 then
    .ok (parts.foldl (fun _ each => if each = gprnTok then some rootTok else some environmentTok) none,
         foundVersion)
  else do
    let parsed ← parse parent
    let (typ1, fv) :=
      if parsed.typeId = some projectTok then
        if truthyO parsed.resourceId then
          if !foundVersion && (parsed.resourceId.getD []).contains '@' then (some versionTok, true)
          else (some projectTok, foundVersion)
        else (some projectsTok, foundVersion)
      else if (parsed.typeId = some changelogTok ∨ parsed.typeId = some docTok)
              ∧ truthyO parsed.resourceId then
        (some versionTok, foundVersion)
      else (parsed.typeId, foundVersion)
    let typ2 :=
      if truthyO parsed.typeId then typ1
      else if truthyO parsed.service then some serviceTok
      else if parsed.environment ≠ [] then some environmentTok
      else typ1
    .ok (typ2, fv)

/-- The dedup fold of `prepare_parents_list`: keep only the first parent of
each inferred tag. -/
def prepareGo (byTypes : List (Option LC)) (foundVersion : Bool) :
    List LC → Except GErr (List Entry)
  | [] => .ok []
  | p :: ps => do
    let c ← classify p foundVersion
    if c.1 ∈ byTypes then prepareGo byTypes c.2 ps
    else do
      let restL ← prepareGo (c.1 :: byTypes) c.2 ps
      .ok (⟨c.1, p⟩ :: restL)

/-- `prepare_parents_list(parents)`. -/
def prepare_parents_list (parents : List LC) : Except GErr (List Entry) :=
  prepareGo [] false parents

/-- One non-terminal step of `get_parents`: `ok none` when the stop condition
holds, otherwise the computed parent.  A truthy string resource-id hits
`resource_id.get("path")` on a `str` (`AttributeError`); missing dict keys
raise `KeyError`. -/
def stepParent (gprn : LC) (deep : Bool) : Except GErr (Option LC) :=
  if deep ∧ ':' ∉ gprn then .ok none
  else if ¬deep ∧ (splitOnColon gprn).length < 4 then .ok none
  else do
    let parsed ← validate gprn
    let resource ← parse_resource_id parsed.typeId parsed.resourceId
    let parsed := if parsed.typeId = some artifactTok then
        { parsed with typeId := some projectTok } else parsed
    let parent? ←
      if resource.truthy then
        match resource with
        | .rstr _ => .error .attributeError
        | .rdict d =>
          if truthyO d.path then
            match d.project_id, d.version with
            | some pid, some ver =>
              ((generate { parsed with resourceId := some (pid ++ '@' :: ver) }).1).map some
            | _, _ => .error .keyError
          else if truthyO d.version then
            match d.project_id with
            | some pid => ((generate { parsed with resourceId := some pid }).1).map some
            | none => .error .keyError
          else ((generate { parsed with resourceId := none }).1).map some
      else .ok (none : Option LC)
    let parent := match parent? with
      | some p => if p = [] then stripChar ':' (joinColon (splitOnColon gprn).dropLast) else p
      | none => stripChar ':' (joinColon (splitOnColon gprn).dropLast)
    .ok (some parent)

/-- The recursion of `get_parents`, with explicit fuel.  `gp_chain` below
supplies `gprn.length + 1` fuel, which is always sufficient (each parent is
strictly shorter than its child, see `stepParent_length` and
`gpFuel_fuel_irrelevant`), so the `outOfFuel` marker is unreachable there. -/
def gpFuel : Nat → LC → Bool → Except GErr (List LC)
  | 0, _, _ => .error .outOfFuel
  | fuel + 1, gprn, deep =>
    match stepParent gprn deep with
    | .error e => .error e
    | .ok none => .ok []
    | .ok (some p) => (gpFuel fuel p deep).map (fun l => p :: l)

/-- The raw accumulated parent chain of `get_parents` over its recursive
calls (the `parents` list at the moment a recursive stop condition fires,
before `prepare_parents_list`): from the first recursive call on, `parents`
is a real Python list, so the accumulator is modelled as a list here.  The
initial call's `parents=None` case is handled in `get_parents` below. -/
def gp_chain (gprn : LC) (deep : Bool) : Except GErr (List LC) :=
  gpFuel (gprn.length + 1) gprn deep

/-- `get_parents(gprn, deep=deep)` as called with the default `parents=None`:
when the stop condition already holds at the initial call, the source runs
`prepare_parents_list(parents)` with `parents` still `None` (the `None`
check sits after the stop branch), and `for parent in parents` raises an
uncaught `TypeError`.  Otherwise the accumulated chain is classified by
`prepare_parents_list`. -/
def get_parents (gprn : LC) (deep : Bool := false) : Except GErr (List Entry) :=
  if (deep ∧ ':' ∉ gprn) ∨ (¬deep ∧ (splitOnColon gprn).length < 4) then .error .typeError
  else (gp_chain gprn deep).bind prepare_parents_list

/-- `get_lineage(gprn, deep=deep)`: the subject itself (classified with a
fresh `found_version` flag) prepended to its parents. -/
def get_lineage (gprn : LC) (deep : Bool := false) : Except GErr (List Entry) := do
  let parents ← get_parents gprn deep
  let selfL ← prepare_parents_list [gprn]
  .ok (selfL ++ parents)

/-! ### lca -/

/-- State of the lineage-collection loop in `lca`: the `lineages` dict (an
insertion-ordered association list), the tied-shortest inputs, and the
current minimum length (`none` = the initial `float("inf")`). -/
structure ScanState where
  lineages : List (LC × List Entry)
  shortests : List LC
  minLen : Option Nat
deriving Repr

/-- Python dict assignment `d[k] = v`: overwrite in place or append. -/
def assocInsert (l : List (LC × List Entry)) (k : LC) (v : List Entry) :
    List (LC × List Entry) :=
  match l with
  | [] => [(k, v)]
  | (k1, v1) :: t => if k1 = k then (k, v) :: t else (k1, v1) :: assocInsert t k v

/-- Python `d.pop(k)`: the value and the remaining dict. -/
def assocPop (l : List (LC × List Entry)) (k : LC) :
    Option (List Entry × List (LC × List Entry)) :=
  match l with
  | [] => none
  | (k1, v1) :: t =>
    if k1 = k then some (v1, t)
    else (assocPop t k).map (fun p => (p.1, (k1, v1) :: p.2))

/-- One iteration of the `for gprn in gprns` loop of `lca`. -/
def scanStep (st : ScanState) (g : LC) : Except GErr ScanState := do
  let res ← get_lineage g true
  let next :=
    match st.minLen with
    | none =>
      if st.shortests ≠ [] then ([g], some res.length)
      else (st.shortests ++ [g], some res.length)
    | some m =>
      if res.length ≤ m then
        if st.shortests ≠ [] ∧ res.length < m then ([g], some res.length)
        else (st.shortests ++ [g], some res.length)
      else (st.shortests, some m)
  .ok ⟨assocInsert st.lineages g res, next.1, next.2⟩

/-- The whole collection loop. -/
def scanGo (st : ScanState) : List LC → Except GErr ScanState
  | [] => .ok st
  | g :: gs => (scanStep st g).bind (fun st1 => scanGo st1 gs)

/-- The tail of `lca` after the tie-break: pop the first shortest input's
lineage, walk it from the root end towards the leaf end, and keep the last
entry found in at least one remaining lineage (so: the entry of smallest
index present in some other lineage, the root-end entry by default).
`shortests[0]` on an empty list and `lineages.pop` on a missing key are the
corresponding Python exceptions. -/
def lcaBody (st : ScanState) : Except GErr LC :=
  match st.shortests with
  | [] => .error .indexError
  | sh :: _ =>
    match assocPop st.lineages sh with
    | none => .error .keyError
    | some (shL, others) =>
      match shL.getLast? with
      | none => .error .indexError
      | some dflt =>
        let pick := shL.find? (fun e => others.any (fun kv => kv.2.any (fun x => decide (x = e))))
        .ok ((pick.getD dflt).gprn)

/-- `lca(gprns, inner=True)`: no further tie-break recursion. -/
def lca1 (gprns : List LC) : Except GErr LC :=
  if (pyDedup gprns).length = 1 then
    match gprns with
    | g :: _ => .ok g
    | [] => .error .indexError
  else do
    let st ← scanGo ⟨[], [], none⟩ gprns
    lcaBody st

/-- `lca(gprns)`: dedup-singleton short cut, lineage collection, one level of
tie-break recursion on the tied-shortest subset, then `lcaBody`. -/
def lca (gprns : List LC) : Except GErr LC :=
  if (pyDedup gprns).length = 1 then
    match gprns with
    | g :: _ => .ok g
    | [] => .error .indexError
  else do
    let st ← scanGo ⟨[], [], none⟩ gprns
    if st.shortests.length > 1 then lca1 st.shortests
    else lcaBody st

/-- `generate(parse(g))` — the GPRN round trip of the spec. -/
def gprnRoundTrip (g : LC) : Except GErr LC :=
  (parse g).bind (fun p => (generate p).1)

instance {ε α : Type} [DecidableEq ε] [DecidableEq α] : DecidableEq (Except ε α) := fun a b =>
  match a, b with
  | .ok x, .ok y =>
    if h : x = y then .isTrue (by rw [h]) else .isFalse (fun c => by cases c; exact h rfl)
  | .error x, .error y =>
    if h : x = y then .isTrue (by rw [h]) else .isFalse (fun c => by cases c; exact h rfl)
  | .ok _, .error _ => .isFalse (fun c => by cases c)
  | .error _, .ok _ => .isFalse (fun c => by cases c)

/-! ### Concrete inputs used by the example-level claims -/

def gA1 : LC := "gprn:dev:svc::project:A@1".toList
def gA2 : LC := "gprn:dev:svc::project:A@2".toList
def gB1 : LC := "gprn:dev:svc::project:B@1".toList
def gArtifact : LC := "gprn:dev:resultsdb::artifact:GPA2:/file/one@3".toList
def gManyAts : LC := "gprn:e:s::project:A@1@2@3@4@5@6@7".toList
def aidAmbiguous : LC := "a:b@1@2".toList
def keyEmptyVersion : LC := "p//m".toList

/-! ## Lemmas on the string utilities -/

theorem splitChar_ne_nil (c : Char) (s : LC) : splitChar c s ≠ [] := by
  induction s with
  | nil => simp [splitChar]
  | cons x xs ih =>
    simp only [splitChar]
    cases h : splitChar c xs with
    | nil => simp
    | cons h1 t1 => by_cases hx : x = c <;> simp [hx]

theorem joinChar_nil_cons (c : Char) (h : LC) (t : List LC) :
    joinChar c ([] :: h :: t) = c :: joinChar c (h :: t) := by
  simp [joinChar]

theorem joinChar_cons_head (c x : Char) (h : LC) (t : List LC) :
    joinChar c ((x :: h) :: t) = x :: joinChar c (h :: t) := by
  cases t <;> simp [joinChar]

theorem joinChar_splitChar (c : Char) (s : LC) : joinChar c (splitChar c s) = s := by
  induction s with
  | nil => rfl
  | cons x xs ih =>
    simp only [splitChar]
    cases h : splitChar c xs with
    | nil => exact absurd h (splitChar_ne_nil c xs)
    | cons h1 t1 =>
      rw [h] at ih
      by_cases hx : x = c
      · subst hx
        simp [joinChar_nil_cons, ih]
      · simp [if_neg hx, joinChar_cons_head, ih]

theorem splitChar_no_sep (c : Char) (s : LC) (h : c ∉ s) : splitChar c s = [s] := by
  induction s with
  | nil => rfl
  | cons x xs ih =>
    simp only [List.mem_cons, not_or] at h
    simp only [splitChar, ih h.2]
    rw [if_neg (Ne.symm h.1)]

theorem splitChar_append (c : Char) (x r : LC) (hx : c ∉ x) :
    splitChar c (x ++ c :: r) = x :: splitChar c r := by
  induction x with
  | nil =>
    simp only [List.nil_append, splitChar]
    cases h : splitChar c r with
    | nil => exact absurd h (splitChar_ne_nil c r)
    | cons h1 t1 => simp
  | cons a x1 ih =>
    simp only [List.mem_cons, not_or] at hx
    have ih1 := ih hx.2
    simp only [List.cons_append, splitChar, List.append_eq, ih1]
    rw [if_neg (Ne.symm hx.1)]

theorem splitChar_joinChar (c : Char) (l : List LC) (hne : l ≠ [])
    (hcf : ∀ x ∈ l, c ∉ x) : splitChar c (joinChar c l) = l := by
  induction l with
  | nil => exact absurd rfl hne
  | cons x t ih =>
    cases t with
    | nil =>
      simp only [joinChar]
      exact splitChar_no_sep c x (hcf x (by simp))
    | cons y t1 =>
      have hx : c ∉ x := hcf x (by simp)
      have : joinChar c (x :: y :: t1) = x ++ c :: joinChar c (y :: t1) := rfl
      rw [this, splitChar_append c x _ hx,
        ih (by simp) (fun z hz => hcf z (List.mem_cons_of_mem x hz))]

theorem length_joinChar (c : Char) (l : List LC) (hne : l ≠ []) :
    (joinChar c l).length + 1 = (l.map List.length).sum + l.length := by
  induction l with
  | nil => exact absurd rfl hne
  | cons x t ih =>
    cases t with
    | nil => simp [joinChar]
    | cons y t1 =>
      have : joinChar c (x :: y :: t1) = x ++ c :: joinChar c (y :: t1) := rfl
      rw [this]
      simp only [List.length_append, List.length_cons, List.map_cons, List.sum_cons]
      have ih1 := ih (by simp)
      simp only [List.map_cons, List.sum_cons, List.length_cons] at ih1
      omega

theorem count_splitChar (c : Char) (s : LC) :
    (splitChar c s).length = s.count c + 1 := by
  induction s with
  | nil => simp [splitChar]
  | cons x xs ih =>
    simp only [splitChar]
    cases h : splitChar c xs with
    | nil => exact absurd h (splitChar_ne_nil c xs)
    | cons h1 t1 =>
      rw [h] at ih
      by_cases hx : x = c
      · subst hx
        simp [ih, List.count_cons_self]
      · have ih2 : t1.length + 1 = List.count c xs + 1 := by simpa using ih
        simp [hx, List.count_cons]
        omega

theorem mem_iff_two_le_splitChar (c : Char) (s : LC) :
    c ∈ s ↔ 2 ≤ (splitChar c s).length := by
  rw [count_splitChar]
  constructor
  · intro h
    have := List.count_pos_iff.mpr h
    omega
  · intro h
    have : 0 < s.count c := by omega
    exact List.count_pos_iff.mp this

theorem length_rstripChar_le (c : Char) (s : LC) : (rstripChar c s).length ≤ s.length := by
  simp only [rstripChar, List.length_reverse]
  calc (s.reverse.dropWhile (fun x => x = c)).length
      ≤ s.reverse.length := (List.dropWhile_suffix _).length_le
    _ = s.length := List.length_reverse s

theorem length_stripChar_le (c : Char) (s : LC) : (stripChar c s).length ≤ s.length := by
  simp only [stripChar]
  calc (rstripChar c (s.dropWhile (fun x => x = c))).length
      ≤ (s.dropWhile (fun x => x = c)).length := length_rstripChar_le _ _
    _ ≤ s.length := (List.dropWhile_suffix _).length_le

theorem dropWhile_replicate_append (c : Char) (k : Nat) (r : LC) :
    (List.replicate k c ++ r).dropWhile (fun x => x = c) = r.dropWhile (fun x => x = c) := by
  induction k with
  | zero => simp
  | succ n ih => simp [List.replicate_succ, List.dropWhile, ih]

theorem rstripChar_append_replicate (c : Char) (x : LC) (k : Nat) :
    rstripChar c (x ++ List.replicate k c) = rstripChar c x := by
  simp only [rstripChar, List.reverse_append, List.reverse_replicate]
  rw [dropWhile_replicate_append]

theorem rstripChar_no_trail (c : Char) (x : LC) (h : x.getLast? ≠ some c) :
    rstripChar c x = x := by
  cases hr : x.reverse with
  | nil =>
    have : x = [] := by simpa using congrArg List.reverse hr
    simp [this, rstripChar]
  | cons a rx =>
    have ha : x.getLast? = some a := by
      rw [← List.head?_reverse, hr]
      rfl
    have hd : (decide (a = c)) = false := decide_eq_false (fun hc => h (hc ▸ ha))
    simp only [rstripChar, hr, List.dropWhile_cons, hd]
    simp only [Bool.false_eq_true, if_false]
    rw [← hr, List.reverse_reverse]

theorem splitFirstAt_eq (c : Char) (s a b : LC) (h : splitFirstAt c s = some (a, b)) :
    s = a ++ c :: b ∧ c ∉ a := by
  induction s generalizing a b with
  | nil => simp [splitFirstAt] at h
  | cons x xs ih =>
    simp only [splitFirstAt] at h
    by_cases hx : x = c
    · rw [if_pos hx] at h
      obtain ⟨rfl, rfl⟩ := by simpa using h
      simp [hx]
    · rw [if_neg hx] at h
      cases hs : splitFirstAt c xs with
      | none => simp [hs] at h
      | some p =>
        rw [hs] at h
        obtain ⟨q1, q2⟩ := p
        simp only [Option.map_some', Option.some.injEq, Prod.mk.injEq] at h
        have ha1 : a = x :: q1 := h.1.symm
        have hb1 : b = q2 := h.2.symm
        subst ha1
        subst hb1
        have ihr := ih q1 b hs
        constructor
        · rw [List.cons_append, ← ihr.1]
        · simp only [List.mem_cons, not_or]
          exact ⟨Ne.symm hx, ihr.2⟩

theorem splitFirstAt_append (c : Char) (a b : LC) (ha : c ∉ a) :
    splitFirstAt c (a ++ c :: b) = some (a, b) := by
  induction a with
  | nil => simp [splitFirstAt]
  | cons x a1 ih =>
    simp only [List.mem_cons, not_or] at ha
    simp only [List.cons_append, splitFirstAt, if_neg (Ne.symm ha.1), List.append_eq, ih ha.2,
      Option.map_some']

theorem splitFirstAt_isSome (c : Char) (s : LC) (h : c ∈ s) :
    (splitFirstAt c s).isSome := by
  induction s with
  | nil => simp at h
  | cons x xs ih =>
    simp only [splitFirstAt]
    by_cases hx : x = c
    · simp [hx]
    · rw [if_neg hx]
      rcases List.mem_cons.mp h with h1 | h2
      · exact absurd h1.symm hx
      · cases ho : splitFirstAt c xs with
        | none => rw [ho] at ih; simp at ih; exact absurd h2 ih
        | some p => simp [ho]

theorem findAtSep_eq (s a b : LC) (h : findAtSep s = some (a, b)) :
    s = a ++ '@' :: b := by
  induction s generalizing a b with
  | nil => simp [findAtSep] at h
  | cons x xs ih =>
    simp only [findAtSep] at h
    by_cases hx : (x = '@' && ((xs.head?.map wordChar).getD false)) = true
    · rw [if_pos hx] at h
      simp only [Option.some.injEq, Prod.mk.injEq] at h
      obtain ⟨ha, hb⟩ := h
      subst ha
      subst hb
      simp only [List.nil_append]
      have : x = '@' := by
        simp only [Bool.and_eq_true, decide_eq_true_eq] at hx
        exact hx.1
      rw [this]
    · rw [if_neg hx] at h
      cases ho : findAtSep xs with
      | none => rw [ho] at h; simp at h
      | some p =>
        rw [ho] at h
        obtain ⟨q1, q2⟩ := p
        simp only [Option.map_some', Option.some.injEq, Prod.mk.injEq] at h
        have ha1 : a = x :: q1 := h.1.symm
        have hb1 : b = q2 := h.2.symm
        subst ha1
        subst hb1
        rw [List.cons_append, ← ih q1 b ho]

theorem findAtSep_append (a : LC) (w : Char) (b : LC) (ha : '@' ∉ a) (hw : wordChar w) :
    findAtSep (a ++ '@' :: w :: b) = some (a, w :: b) := by
  induction a with
  | nil =>
    simp only [List.nil_append, findAtSep, List.head?, Option.map_some', Option.getD_some, hw]
    simp
  | cons x a1 ih =>
    simp only [List.mem_cons, not_or] at ha
    have hxne : (x = '@' && (((a1 ++ '@' :: w :: b).head?.map wordChar).getD false)) = false := by
      have : ¬(x = '@') := Ne.symm ha.1
      simp [this]
    simp only [List.cons_append, findAtSep, hxne, List.append_eq, ih ha.2, Option.map_some']
    simp

theorem findAtSepLast_eq (s a b : LC) (h : findAtSepLast s = some (a, b)) :
    s = a ++ '@' :: b := by
  induction s generalizing a b with
  | nil => simp [findAtSepLast] at h
  | cons x xs ih =>
    simp only [findAtSepLast] at h
    cases ho : findAtSepLast xs with
    | some p =>
      rw [ho] at h
      obtain ⟨q1, q2⟩ := p
      simp only [Option.some.injEq, Prod.mk.injEq] at h
      have ha1 : a = x :: q1 := h.1.symm
      have hb1 : b = q2 := h.2.symm
      subst ha1
      subst hb1
      rw [List.cons_append, ← ih q1 b ho]
    | none =>
      rw [ho] at h
      by_cases hx : (x = '@' && ((xs.head?.map wordChar).getD false)) = true
      · rw [if_pos hx] at h
        simp only [Option.some.injEq, Prod.mk.injEq] at h
        have ha1 : a = [] := h.1.symm
        have hb1 : b = xs := h.2.symm
        subst ha1
        subst hb1
        have : x = '@' := by
          simp only [Bool.and_eq_true, decide_eq_true_eq] at hx
          exact hx.1
        simp [this]
      · rw [if_neg hx] at h
        simp at h

theorem splitNthAt_eq (c : Char) (n : Nat) (s a b : LC) (h : splitNthAt c n s = some (a, b)) :
    s = a ++ c :: b := by
  induction n generalizing s a b with
  | zero => simp [splitNthAt] at h
  | succ m ihm =>
    cases m with
    | zero => exact (splitFirstAt_eq c s a b h).1
    | succ m1 =>
      simp only [splitNthAt] at h
      cases ho : splitFirstAt c s with
      | none => rw [ho] at h; simp at h
      | some p =>
        rw [ho] at h
        obtain ⟨q1, q2⟩ := p
        have h2 : (splitNthAt c (m1 + 1) q2).map (fun q => (q1 ++ c :: q.1, q.2)) = some (a, b) := h
        cases hr : splitNthAt c (m1 + 1) q2 with
        | none => rw [hr] at h2; simp at h2
        | some r =>
          rw [hr] at h2
          obtain ⟨r1, r2⟩ := r
          simp only [Option.map_some', Option.some.injEq, Prod.mk.injEq] at h2
          replace h := h2
          have ha1 : a = q1 ++ c :: r1 := h.1.symm
          have hb1 : b = r2 := h.2.symm
          subst ha1
          subst hb1
          have h1 := (splitFirstAt_eq c s q1 q2 ho).1
          have h2 := ihm q2 r1 b hr
          rw [h1, h2]
          simp

theorem rsplitLastAt_eq (c : Char) (s a b : LC) (h : rsplitLastAt c s = some (a, b)) :
    s = a ++ c :: b := by
  induction s generalizing a b with
  | nil => simp [rsplitLastAt] at h
  | cons x xs ih =>
    simp only [rsplitLastAt] at h
    cases ho : rsplitLastAt c xs with
    | some p =>
      rw [ho] at h
      obtain ⟨q1, q2⟩ := p
      simp only [Option.some.injEq, Prod.mk.injEq] at h
      have ha1 : a = x :: q1 := h.1.symm
      have hb1 : b = q2 := h.2.symm
      subst ha1
      subst hb1
      rw [List.cons_append, ← ih q1 b ho]
    | none =>
      rw [ho] at h
      by_cases hx : x = c
      · rw [if_pos hx] at h
        simp only [Option.some.injEq, Prod.mk.injEq] at h
        have ha1 : a = [] := h.1.symm
        have hb1 : b = xs := h.2.symm
        subst ha1
        subst hb1
        simp [hx]
      · rw [if_neg hx] at h
        simp at h

theorem rsplitLastAt_isSome (c : Char) (s : LC) (h : c ∈ s) :
    (rsplitLastAt c s).isSome := by
  induction s with
  | nil => simp at h
  | cons x xs ih =>
    simp only [rsplitLastAt]
    cases ho : rsplitLastAt c xs with
    | some p => simp
    | none =>
      rcases List.mem_cons.mp h with h1 | h2
      · simp [h1.symm]
      · rw [ho] at ih
        simp at ih
        exact absurd h2 ih

theorem takeWhile_all (p : Char → Bool) (v : LC) (h : ∀ x ∈ v, p x) :
    v.takeWhile p = v := by
  induction v with
  | nil => rfl
  | cons x xs ih =>
    rw [List.takeWhile_cons]
    simp only [h x (by simp), if_true]
    rw [ih (fun y hy => h y (List.mem_cons_of_mem x hy))]

theorem getLast?_append_right (x s : LC) (hs : s ≠ []) :
    (x ++ s).getLast? = s.getLast? := by
  rw [← List.head?_reverse, ← List.head?_reverse, List.reverse_append]
  cases hr : s.reverse with
  | nil => exact absurd (by simpa using congrArg List.reverse hr) hs
  | cons a t => simp

theorem getLast?_mem {α : Type} (s : List α) (a : α) (h : s.getLast? = some a) : a ∈ s := by
  rw [← List.head?_reverse] at h
  have : a ∈ s.reverse := List.mem_of_mem_head? h
  simpa using this

/-! ## Lemmas on the aid.py functions -/

theorem unpack_id_struct (r : LC) (a : Aid) (h : unpack_id r = .ok a) :
    (∃ junk, r = a.project_id ++ ':' :: a.path ++ '@' :: a.version ++ junk)
    ∧ a.project_id ≠ [] ∧ a.path ≠ [] ∧ a.version ≠ [] := by
  simp only [unpack_id] at h
  split at h
  · simp at h
  · rename_i pid path afterAt heq
    by_cases hc : pid = [] ∨ path = [] ∨ afterAt.takeWhile wordChar = []
    · rw [if_pos hc] at h
      simp at h
    · rw [if_neg hc] at h
      simp only [Except.ok.injEq] at h
      push_neg at hc
      subst h
      have h3 : afterAt.takeWhile wordChar ++ afterAt.dropWhile wordChar = afterAt :=
        List.takeWhile_append_dropWhile wordChar afterAt
      split at heq
      · split at heq
        · simp at heq
        · rename_i pid1 rest hsp
          split at heq
          · simp at heq
          · rename_i path1 after1 hfa
            simp only [Option.some.injEq, Prod.mk.injEq] at heq
            obtain ⟨he1, he2, he3⟩ := heq
            subst he1
            subst he2
            subst he3
            have h1 := splitNthAt_eq ':' 6 (r.takeWhile notNL) pid1 rest hsp
            have h2 := findAtSepLast_eq rest path1 after1 hfa
            refine ⟨⟨after1.dropWhile wordChar ++ r.dropWhile notNL, ?_⟩, hc.1, hc.2.1, hc.2.2⟩
            have h4 := List.takeWhile_append_dropWhile notNL r
            conv_lhs => rw [← h4]
            rw [h1, h2, ← h3]
            simp
            rw [← List.append_assoc, h3]
      · split at heq
        · simp at heq
        · rename_i pid1 rest hsp
          split at heq
          · simp at heq
          · rename_i path1 after1 hfa
            simp only [Option.some.injEq, Prod.mk.injEq] at heq
            obtain ⟨he1, he2, he3⟩ := heq
            subst he1
            subst he2
            subst he3
            have h1 := (splitFirstAt_eq ':' (r.takeWhile notNL) pid1 rest hsp).1
            have h2 := findAtSep_eq rest path1 after1 hfa
            refine ⟨⟨after1.dropWhile wordChar ++ r.dropWhile notNL, ?_⟩, hc.1, hc.2.1, hc.2.2⟩
            have h4 := List.takeWhile_append_dropWhile notNL r
            conv_lhs => rw [← h4]
            rw [h1, h2, ← h3]
            simp
            rw [← List.append_assoc, h3]

theorem unpack_id_length (r : LC) (a : Aid) (h : unpack_id r = .ok a) :
    a.project_id.length + a.version.length + 3 ≤ r.length := by
  obtain ⟨⟨junk, hj⟩, _, hpa, _⟩ := unpack_id_struct r a h
  have : a.path.length ≥ 1 := by
    cases hp : a.path with
    | nil => exact absurd hp hpa
    | cons x xs => simp
  rw [hj]
  simp only [List.length_append, List.length_cons]
  omega

/-! ## Lemmas on parse / generate / validate -/

theorem parseParts_resourceId (parts : List LC) (pd : ParsedGPRN) (r : LC)
    (h : parseParts parts = .ok pd) (hr : pd.resourceId = some r) :
    ∃ e svc a b rest5, parts = gprnTok :: e :: svc :: a :: b :: rest5
      ∧ rest5 ≠ [] ∧ r = joinColon rest5 ∧ r ≠ [] ∧ svc ≠ [] ∧ b ≠ []
      ∧ pd = ⟨(if e = [] then prdTok else e), some svc,
              (if a = [] then none else some a), some b, some r⟩ := by
  cases parts with
  | nil => simp [parseParts] at h
  | cons p0 rest =>
    cases rest with
    | nil =>
      simp only [parseParts] at h
      split at h <;> simp at h
    | cons e rest1 =>
      cases rest1 with
      | nil =>
        simp only [parseParts] at h
        split at h
        · simp at h
        · simp only [Except.ok.injEq] at h
          rw [← h] at hr
          simp at hr
      | cons s restC =>
        cases restC with
        | nil =>
          simp only [parseParts] at h
          split at h
          · simp at h
          · split at h
            · simp at h
            · simp only [Except.ok.injEq] at h
              rw [← h] at hr
              simp at hr
        | cons a restD =>
          cases restD with
          | nil =>
            simp only [parseParts] at h
            split at h
            · simp at h
            · split at h
              · simp at h
              · simp only [Except.ok.injEq] at h
                rw [← h] at hr
                simp at hr
          | cons b rest5 =>
            cases rest5 with
            | nil =>
              simp only [parseParts] at h
              split at h
              · simp at h
              · split at h
                · simp at h
                · simp only [Except.ok.injEq] at h
                  rw [← h] at hr
                  simp at hr
            | cons c rest6 =>
              simp only [parseParts] at h
              split at h
              · simp at h
              · rename_i hp0
                split at h
                · simp at h
                · rename_i hs
                  split at h
                  · simp only [Except.ok.injEq] at h
                    rw [← h] at hr
                    simp at hr
                  · rename_i hres
                    split at h
                    · simp at h
                    · rename_i hb
                      rw [if_neg (by simp : ¬(some b = (none : Option LC)))] at h
                      simp only [Except.ok.injEq] at h
                      rw [← h] at hr
                      simp only at hr
                      have hr2 : r = joinColon (c :: rest6) := (Option.some.inj hr).symm
                      have hp0' : p0 = gprnTok := by
                        by_contra hc
                        exact hp0 hc
                      refine ⟨e, s, a, b, c :: rest6, by rw [hp0'], by simp, hr2,
                        by rw [hr2]; exact hres, by
                          intro hse
                          exact hs hse, hb, ?_⟩
                      rw [← h, hr2]

theorem slot_getD (o : Option LC) : (if truthyO o then o.getD [] else []) = o.getD [] := by
  cases o with
  | none => rfl
  | some p =>
    by_cases hp : p = [] <;> simp [truthyO, hp]

theorem list_ifne (x : LC) : (if x ≠ [] then x else []) = x := by
  by_cases hx : x = [] <;> simp [hx]

/-- The value `generate` produces when a service is present. -/
theorem generate_ok (dg : ParsedGPRN) (svc : LC) (h : dg.service = some svc) :
    (generate dg).1 = .ok (rstripChar ':' (joinColon [gprnTok,
      (if dg.environment = prdTok then [] else dg.environment), svc,
      dg.placeholder.getD [], dg.typeId.getD [], dg.resourceId.getD []])) := by
  obtain ⟨env, sv, ph, tid, rid⟩ := dg
  simp only at h
  subst h
  by_cases he : env = prdTok
  · simp only [generate, if_pos he, slot_getD, list_ifne]
  · simp only [generate, if_neg he, slot_getD, list_ifne]

/-- A truthy result of `parse_resource_id` comes from a truthy input string. -/
theorem parse_resource_id_truthy (t : Option LC) (o : Option LC) (res : ResId)
    (h : parse_resource_id t o = .ok res) (ht : res.truthy) :
    ∃ r, o = some r ∧ r ≠ [] := by
  cases o with
  | none =>
    simp only [parse_resource_id, Except.ok.injEq] at h
    rw [← h] at ht
    simp [ResId.truthy] at ht
  | some r =>
    by_cases hr : r = []
    · simp only [parse_resource_id, if_pos hr, Except.ok.injEq] at h
      rw [← h] at ht
      simp [ResId.truthy] at ht
    · exact ⟨r, rfl, hr⟩

/-- A dict with a truthy `path` can only come from the `artifact` branch,
hence from `unpack_id`. -/
theorem parse_resource_id_path (t : Option LC) (r : LC) (d : PyDict)
    (h : parse_resource_id t (some r) = .ok (.rdict d)) (hp : truthyO d.path) :
    ∃ pid path0 ver, d = ⟨some pid, some path0, some ver⟩
      ∧ unpack_id r = .ok ⟨pid, path0, ver⟩ := by
  simp only [parse_resource_id] at h
  by_cases hr : r = []
  · rw [if_pos hr] at h
    simp only [Except.ok.injEq, ResId.rdict.injEq] at h
    rw [← h] at hp
    simp [emptyDict, truthyO] at hp
  · rw [if_neg hr] at h
    by_cases ha : t = some artifactTok
    · rw [if_pos ha] at h
      cases hu : unpack_id r with
      | error e => rw [hu] at h; simp [Except.map] at h
      | ok a =>
        rw [hu] at h
        simp only [Except.map, Except.ok.injEq, ResId.rdict.injEq] at h
        refine ⟨a.project_id, a.path, a.version, h.symm, ?_⟩
        rfl
    · rw [if_neg ha] at h
      by_cases hpc : t = some projectTok ∨ t = some changelogTok
      · rw [if_pos hpc] at h
        cases hsp : rsplitLastAt '@' r with
        | some p =>
          rw [hsp] at h
          simp only [Except.ok.injEq, ResId.rdict.injEq] at h
          rw [← h] at hp
          simp [truthyO] at hp
        | none =>
          rw [hsp] at h
          simp only [Except.ok.injEq, ResId.rdict.injEq] at h
          rw [← h] at hp
          simp [truthyO] at hp
      · rw [if_neg hpc] at h
        simp at h

/-- A dict with a falsy `path` but truthy `version` can only come from the
last-`@` split of the `project`/`changelog` branch. -/
theorem parse_resource_id_version (t : Option LC) (r : LC) (d : PyDict)
    (h : parse_resource_id t (some r) = .ok (.rdict d))
    (hp : ¬ truthyO d.path) (hv : truthyO d.version) :
    ∃ pid ver, d = ⟨some pid, none, some ver⟩ ∧ r = pid ++ '@' :: ver ∧ ver ≠ [] := by
  simp only [parse_resource_id] at h
  by_cases hr : r = []
  · rw [if_pos hr] at h
    simp only [Except.ok.injEq, ResId.rdict.injEq] at h
    rw [← h] at hv
    simp [emptyDict, truthyO] at hv
  · rw [if_neg hr] at h
    by_cases ha : t = some artifactTok
    · rw [if_pos ha] at h
      cases hu : unpack_id r with
      | error e => rw [hu] at h; simp [Except.map] at h
      | ok a =>
        rw [hu] at h
        simp only [Except.map, Except.ok.injEq, ResId.rdict.injEq] at h
        obtain ⟨_, _, hpath, _⟩ := unpack_id_struct r a hu
        rw [← h] at hp
        simp [truthyO, hpath] at hp
    · rw [if_neg ha] at h
      by_cases hpc : t = some projectTok ∨ t = some changelogTok
      · rw [if_pos hpc] at h
        cases hsp : rsplitLastAt '@' r with
        | some p =>
          rw [hsp] at h
          simp only [Except.ok.injEq, ResId.rdict.injEq] at h
          obtain ⟨q1, q2⟩ := p
          have hd : d = ⟨some q1, none, some q2⟩ := h.symm
          rw [hd] at hv
          simp only [truthyO] at hv
          have hq2 : q2 ≠ [] := by simpa using hv
          exact ⟨q1, q2, hd, rsplitLastAt_eq '@' r q1 q2 hsp, hq2⟩
        | none =>
          rw [hsp] at h
          simp only [Except.ok.injEq, ResId.rdict.injEq] at h
          rw [← h] at hv
          simp [truthyO] at hv
      · rw [if_neg hpc] at h
        simp at h

/-- `validate` (without a config) returns the untouched `parse` result. -/
theorem validate_parse (g : LC) (pd : ParsedGPRN) (h : validate g none = .ok pd) :
    parse g = .ok pd := by
  simp only [validate, validate.matchCfg] at h
  cases hp : parse g with
  | error e => rw [hp] at h; simp [Bind.bind, Except.bind] at h
  | ok pd1 =>
    rw [hp] at h
    simp only [Bind.bind, Except.bind] at h
    split at h
    · split at h
      · simp only [Except.ok.injEq] at h ⊢
        exact h
      · split at h
        · simp at h
        · split at h
          · split at h
            · simp at h
            · simp only [Except.ok.injEq] at h ⊢
              exact h
          · simp only [Except.ok.injEq] at h ⊢
            exact h
    · simp only [Except.ok.injEq] at h ⊢
      exact h

/-! ## Length bounds for the parent step -/

theorem env_slot_le (e : LC) :
    (if (if e = [] then prdTok else e) = prdTok then [] else (if e = [] then prdTok else e)).length
      ≤ e.length := by
  by_cases he : e = []
  · simp [he]
  · rw [if_neg he]
    by_cases hp : e = prdTok
    · rw [if_pos hp]
      simp
    · rw [if_neg hp]

theorem ph_slot_len (a : LC) : ((if a = [] then none else some a).getD []).length = a.length := by
  by_cases ha : a = [] <;> simp [ha]

theorem fallback_length (g : LC) (h2 : 2 ≤ (splitOnColon g).length) :
    (stripChar ':' (joinColon (splitOnColon g).dropLast)).length < g.length := by
  have hne : splitOnColon g ≠ [] := splitChar_ne_nil ':' g
  have hdll : (splitOnColon g).dropLast.length = (splitOnColon g).length - 1 :=
    List.length_dropLast _
  have hdl : (splitOnColon g).dropLast ≠ [] := by
    intro hc
    rw [hc] at hdll
    simp at hdll
    omega
  have hg : joinColon (splitOnColon g) = g := joinChar_splitChar ':' g
  have e1 := length_joinChar ':' (splitOnColon g) hne
  have e2 := length_joinChar ':' (splitOnColon g).dropLast hdl
  have hsp : splitOnColon g = (splitOnColon g).dropLast ++ [(splitOnColon g).getLast hne] :=
    (List.dropLast_append_getLast hne).symm
  have hsum : ((splitOnColon g).map List.length).sum
      = ((splitOnColon g).dropLast.map List.length).sum
        + ((splitOnColon g).getLast hne).length := by
    conv_lhs => rw [hsp]
    simp
  have hlen : (splitOnColon g).length = (splitOnColon g).dropLast.length + 1 := by
    conv_lhs => rw [hsp]
    simp
  have hs := length_stripChar_le ':' (joinColon (splitOnColon g).dropLast)
  simp only [joinColon] at hg hs ⊢
  rw [hg] at e1
  omega

/-- Bound for the generated parent: the slots reproduce the parsed tokens,
the type-id slot may only shrink, and the resource-id slot lost at least one
character, so the output is strictly shorter than the input GPRN. -/
theorem gen_bound (g : LC) (pd : ParsedGPRN) (hparse : parse g = .ok pd)
    (r : LC) (hres : pd.resourceId = some r)
    (tid2 : Option LC) (htid2 : (tid2.getD []).length ≤ (pd.typeId.getD []).length)
    (rid2 : Option LC) (hrid : (rid2.getD []).length + 1 ≤ r.length)
    (out : LC)
    (hgen : (generate ⟨pd.environment, pd.service, pd.placeholder, tid2, rid2⟩).1 = .ok out) :
    out.length < g.length := by
  obtain ⟨e, svc, a, b, rest5, hshape, h5ne, hrj, hrne, hsvc, hbne, hpd⟩ :=
    parseParts_resourceId (splitOnColon g) pd r hparse hres
  have hsvc2 : (⟨pd.environment, pd.service, pd.placeholder, tid2, rid2⟩ : ParsedGPRN).service
      = some svc := by rw [hpd]
  have hout := generate_ok _ svc hsvc2
  rw [hgen] at hout
  simp only [Except.ok.injEq] at hout
  have hout_le : out.length
      ≤ (joinChar ':' [gprnTok, (if pd.environment = prdTok then [] else pd.environment),
          svc, pd.placeholder.getD [], tid2.getD [], rid2.getD []]).length := by
    rw [hout]
    exact length_rstripChar_le ':' _
  have hjoin := length_joinChar ':' [gprnTok,
      (if pd.environment = prdTok then [] else pd.environment),
      svc, pd.placeholder.getD [], tid2.getD [], rid2.getD []] (by simp)
  simp only [List.map_cons, List.map_nil, List.sum_cons, List.sum_nil, List.length_cons,
    List.length_nil] at hjoin
  have henv : (if pd.environment = prdTok then [] else pd.environment).length ≤ e.length := by
    rw [hpd]
    exact env_slot_le e
  have hph : (pd.placeholder.getD []).length = a.length := by
    rw [hpd]
    exact ph_slot_len a
  have htid3 : (tid2.getD []).length ≤ b.length := by
    rw [hpd] at htid2
    simpa using htid2
  have hg : joinColon (splitOnColon g) = g := joinChar_splitChar ':' g
  rw [hshape] at hg
  simp only [joinColon] at hg hrj
  have e1 := length_joinChar ':' (gprnTok :: e :: svc :: a :: b :: rest5) (by simp)
  rw [hg] at e1
  simp only [List.map_cons, List.sum_cons, List.length_cons] at e1
  have er := length_joinChar ':' rest5 h5ne
  rw [← hrj] at er
  have hglen : gprnTok.length = 4 := rfl
  omega

theorem tid_slot_le_art (pd : ParsedGPRN) (hart : pd.typeId = some artifactTok) :
    (((some projectTok : Option LC)).getD []).length ≤ (pd.typeId.getD []).length := by
  rw [hart]
  decide

/-- Every parent computed by a non-terminal `get_parents` step is strictly
shorter than its child. -/
theorem stepParent_length (g : LC) (deep : Bool) (p : LC)
    (h : stepParent g deep = .ok (some p)) : p.length < g.length := by
  by_cases h1 : (deep : Prop) ∧ ':' ∉ g
  · rw [stepParent, if_pos h1] at h
    simp at h
  · by_cases h2 : ¬(deep : Prop) ∧ (splitOnColon g).length < 4
    · rw [stepParent, if_neg h1, if_pos h2] at h
      simp at h
    · rw [stepParent, if_neg h1, if_neg h2] at h
      have hcol : 2 ≤ (splitOnColon g).length := by
        by_cases hd : (deep : Prop)
        · have hmem : ':' ∈ g := by
            by_contra hc
            exact h1 ⟨hd, hc⟩
          exact (mem_iff_two_le_splitChar ':' g).mp hmem
        · have hnl : ¬((splitOnColon g).length < 4) := fun hc => h2 ⟨hd, hc⟩
          omega
      simp only [Bind.bind, Except.bind] at h
      split at h
      · simp at h
      · rename_i pd hv
        have hparse := validate_parse g pd hv
        split at h
        · simp at h
        · rename_i resource hpr
          by_cases hart : pd.typeId = some artifactTok
          case pos =>
            rw [if_pos hart] at h
            dsimp only at h
            split at h
            · rename_i ht
              split at h
              · simp at h
              · rename_i d
                obtain ⟨r, hrr, hrne⟩ := parse_resource_id_truthy _ _ _ hpr ht
                rw [hrr] at hpr
                by_cases hpath : truthyO d.path = true
                · rw [if_pos hpath] at h
                  obtain ⟨pid1, path1, ver1, hd, hu⟩ :=
                    parse_resource_id_path pd.typeId r d hpr hpath
                  split at h
                  · rename_i pid ver hdp hdv
                    cases hgen : (generate (⟨pd.environment, pd.service, pd.placeholder,
                        some projectTok, some (pid ++ '@' :: ver)⟩ : ParsedGPRN)).1 with
                    | error e2 =>
                      rw [hgen] at h
                      simp [Except.map] at h
                    | ok out =>
                      rw [hgen] at h
                      simp only [Except.map, Except.ok.injEq, Option.some.injEq] at h
                      by_cases hoe : out = []
                      · rw [if_pos hoe] at h
                        rw [← h]
                        exact fallback_length g hcol
                      · rw [if_neg hoe] at h
                        rw [← h]
                        have hdpid : pid = pid1 := by
                          rw [hd] at hdp
                          exact (Option.some.inj hdp).symm
                        have hdver : ver = ver1 := by
                          rw [hd] at hdv
                          exact (Option.some.inj hdv).symm
                        have hlen := unpack_id_length r ⟨pid1, path1, ver1⟩ hu
                        refine gen_bound g pd hparse r hrr _ ?_ _ ?_ out hgen
                        · rw [hart]
                          decide
                        · simp only [Option.getD_some, List.length_append, List.length_cons,
                            hdpid, hdver]
                          simp only at hlen
                          omega
                  · simp at h
                · rw [if_neg hpath] at h
                  by_cases hver : truthyO d.version = true
                  · rw [if_pos hver] at h
                    obtain ⟨pid1, ver1, hd, hrpv, hvne⟩ :=
                      parse_resource_id_version pd.typeId r d hpr (by simp [hpath]) hver
                    split at h
                    · rename_i pid hdp
                      cases hgen : (generate (⟨pd.environment, pd.service, pd.placeholder,
                          some projectTok, some pid⟩ : ParsedGPRN)).1 with
                      | error e2 =>
                        rw [hgen] at h
                        simp [Except.map] at h
                      | ok out =>
                        rw [hgen] at h
                        simp only [Except.map, Except.ok.injEq, Option.some.injEq] at h
                        by_cases hoe : out = []
                        · rw [if_pos hoe] at h
                          rw [← h]
                          exact fallback_length g hcol
                        · rw [if_neg hoe] at h
                          rw [← h]
                          have hdpid : pid = pid1 := by
                            rw [hd] at hdp
                            exact (Option.some.inj hdp).symm
                          refine gen_bound g pd hparse r hrr _ ?_ _ ?_ out hgen
                          · rw [hart]
                            decide
                          · simp only [Option.getD_some, hdpid]
                            rw [hrpv]
                            simp
                    · simp at h
                  · rw [if_neg hver] at h
                    cases hgen : (generate (⟨pd.environment, pd.service, pd.placeholder,
                        some projectTok, none⟩ : ParsedGPRN)).1 with
                    | error e2 =>
                      rw [hgen] at h
                      simp [Except.map] at h
                    | ok out =>
                      rw [hgen] at h
                      simp only [Except.map, Except.ok.injEq, Option.some.injEq] at h
                      by_cases hoe : out = []
                      · rw [if_pos hoe] at h
                        rw [← h]
                        exact fallback_length g hcol
                      · rw [if_neg hoe] at h
                        rw [← h]
                        refine gen_bound g pd hparse r hrr _ ?_ _ ?_ out hgen
                        · rw [hart]
                          decide
                        · simp only [Option.getD_none, List.length_nil]
                          have h1r : 1 ≤ r.length := by
                            cases hrc : r with
                            | nil => exact absurd hrc hrne
                            | cons x xs => simp
                          omega
            · rename_i ht
              simp only [Except.ok.injEq, Option.some.injEq] at h
              rw [← h]
              exact fallback_length g hcol
          case neg =>
            rw [if_neg hart] at h
            split at h
            · rename_i ht
              split at h
              · simp at h
              · rename_i d
                obtain ⟨r, hrr, hrne⟩ := parse_resource_id_truthy _ _ _ hpr ht
                rw [hrr] at hpr
                by_cases hpath : truthyO d.path = true
                · rw [if_pos hpath] at h
                  obtain ⟨pid1, path1, ver1, hd, hu⟩ :=
                    parse_resource_id_path pd.typeId r d hpr hpath
                  split at h
                  · rename_i pid ver hdp hdv
                    cases hgen : (generate (⟨pd.environment, pd.service, pd.placeholder,
                        pd.typeId, some (pid ++ '@' :: ver)⟩ : ParsedGPRN)).1 with
                    | error e2 =>
                      rw [hgen] at h
                      simp [Except.map] at h
                    | ok out =>
                      rw [hgen] at h
                      simp only [Except.map, Except.ok.injEq, Option.some.injEq] at h
                      by_cases hoe : out = []
                      · rw [if_pos hoe] at h
                        rw [← h]
                        exact fallback_length g hcol
                      · rw [if_neg hoe] at h
                        rw [← h]
                        have hdpid : pid = pid1 := by
                          rw [hd] at hdp
                          exact (Option.some.inj hdp).symm
                        have hdver : ver = ver1 := by
                          rw [hd] at hdv
                          exact (Option.some.inj hdv).symm
                        have hlen := unpack_id_length r ⟨pid1, path1, ver1⟩ hu
                        refine gen_bound g pd hparse r hrr _ ?_ _ ?_ out hgen
                        · exact le_refl _
                        · simp only [Option.getD_some, List.length_append, List.length_cons,
                            hdpid, hdver]
                          simp only at hlen
                          omega
                  · simp at h
                · rw [if_neg hpath] at h
                  by_cases hver : truthyO d.version = true
                  · rw [if_pos hver] at h
                    obtain ⟨pid1, ver1, hd, hrpv, hvne⟩ :=
                      parse_resource_id_version pd.typeId r d hpr (by simp [hpath]) hver
                    split at h
                    · rename_i pid hdp
                      cases hgen : (generate (⟨pd.environment, pd.service, pd.placeholder,
                          pd.typeId, some pid⟩ : ParsedGPRN)).1 with
                      | error e2 =>
                        rw [hgen] at h
                        simp [Except.map] at h
                      | ok out =>
                        rw [hgen] at h
                        simp only [Except.map, Except.ok.injEq, Option.some.injEq] at h
                        by_cases hoe : out = []
                        · rw [if_pos hoe] at h
                          rw [← h]
                          exact fallback_length g hcol
                        · rw [if_neg hoe] at h
                          rw [← h]
                          have hdpid : pid = pid1 := by
                            rw [hd] at hdp
                            exact (Option.some.inj hdp).symm
                          refine gen_bound g pd hparse r hrr _ ?_ _ ?_ out hgen
                          · exact le_refl _
                          · simp only [Option.getD_some, hdpid]
                            rw [hrpv]
                            simp
                    · simp at h
                  · rw [if_neg hver] at h
                    cases hgen : (generate (⟨pd.environment, pd.service, pd.placeholder,
                        pd.typeId, none⟩ : ParsedGPRN)).1 with
                    | error e2 =>
                      rw [hgen] at h
                      simp [Except.map] at h
                    | ok out =>
                      rw [hgen] at h
                      simp only [Except.map, Except.ok.injEq, Option.some.injEq] at h
                      by_cases hoe : out = []
                      · rw [if_pos hoe] at h
                        rw [← h]
                        exact fallback_length g hcol
                      · rw [if_neg hoe] at h
                        rw [← h]
                        refine gen_bound g pd hparse r hrr _ ?_ _ ?_ out hgen
                        · exact le_refl _
                        · simp only [Option.getD_none, List.length_nil]
                          have h1r : 1 ≤ r.length := by
                            cases hrc : r with
                            | nil => exact absurd hrc hrne
                            | cons x xs => simp
                          omega
            · rename_i ht
              simp only [Except.ok.injEq, Option.some.injEq] at h
              rw [← h]
              exact fallback_length g hcol

/-! ## Fuel adequacy and chain length -/

theorem gpFuel_length (n : Nat) (g : LC) (deep : Bool) (l : List LC)
    (h : gpFuel n g deep = .ok l) : l.length ≤ g.length := by
  induction n generalizing g l with
  | zero => simp [gpFuel] at h
  | succ m ih =>
    simp only [gpFuel] at h
    split at h
    · simp at h
    · simp only [Except.ok.injEq] at h
      rw [← h]
      simp
    · rename_i p hstep
      cases hr : gpFuel m p deep with
      | error e => rw [hr] at h; simp [Except.map] at h
      | ok l2 =>
        rw [hr] at h
        simp only [Except.map, Except.ok.injEq] at h
        have hlt := stepParent_length g deep p hstep
        have hl2 := ih p l2 hr
        rw [← h]
        simp only [List.length_cons]
        omega

/-- The fuel supplied by `gp_chain` is irrelevant as soon as it exceeds the
input length: the recursion of `get_parents` always terminates within
`g.length` steps. -/
theorem gpFuel_irrelevant (n : Nat) (m : Nat) (g : LC) (deep : Bool)
    (hn : g.length < n) (hm : g.length < m) : gpFuel n g deep = gpFuel m g deep := by
  induction n generalizing g m with
  | zero => omega
  | succ k ih =>
    cases m with
    | zero => omega
    | succ k2 =>
      simp only [gpFuel]
      split
      · rfl
      · rfl
      · rename_i p hstep
        have hlt := stepParent_length g deep p hstep
        rw [ih k2 p (by omega) (by omega)]

/-! ## Lemmas on the lca machinery -/

theorem assocInsert_mem (l : List (LC × List Entry)) (k : LC) (v : List Entry)
    (kv : LC × List Entry) (h : kv ∈ assocInsert l k v) : kv ∈ l ∨ kv = (k, v) := by
  induction l with
  | nil =>
    simp only [assocInsert, List.mem_singleton] at h
    exact Or.inr h
  | cons p t ih =>
    simp only [assocInsert] at h
    split at h
    · rcases List.mem_cons.mp h with h1 | h2
      · exact Or.inr h1
      · exact Or.inl (List.mem_cons_of_mem p h2)
    · rcases List.mem_cons.mp h with h1 | h2
      · exact Or.inl (h1 ▸ List.mem_cons_self p t)
      · rcases ih h2 with h3 | h4
        · exact Or.inl (List.mem_cons_of_mem p h3)
        · exact Or.inr h4

theorem assocPop_mem (l : List (LC × List Entry)) (k : LC) (v : List Entry)
    (rest : List (LC × List Entry)) (h : assocPop l k = some (v, rest)) :
    (k, v) ∈ l ∧ ∀ kv ∈ rest, kv ∈ l := by
  induction l generalizing rest with
  | nil => simp [assocPop] at h
  | cons p t ih =>
    obtain ⟨k1, v1⟩ := p
    simp only [assocPop] at h
    split at h
    · rename_i hk
      simp only [Option.some.injEq, Prod.mk.injEq] at h
      constructor
      · rw [hk, h.1]
        exact List.mem_cons_self _ t
      · intro kv hkv
        rw [← h.2] at hkv
        exact List.mem_cons_of_mem _ hkv
    · cases hp : assocPop t k with
      | none => rw [hp] at h; simp at h
      | some q =>
        rw [hp] at h
        obtain ⟨q1, q2⟩ := q
        simp only [Option.map_some', Option.some.injEq, Prod.mk.injEq] at h
        obtain ⟨hq1, hq2⟩ := h
        have ihr := ih q2 (by rw [← hq1]; exact hp)
        constructor
        · exact List.mem_cons_of_mem _ ihr.1
        · intro kv hkv
          rw [← hq2] at hkv
          rcases List.mem_cons.mp hkv with h1 | h2
          · exact h1 ▸ List.mem_cons_self _ t
          · exact List.mem_cons_of_mem _ (ihr.2 kv h2)

theorem scanStep_facts (st : ScanState) (g : LC) (st2 : ScanState)
    (h : scanStep st g = .ok st2) :
    (∃ L, get_lineage g true = .ok L ∧ st2.lineages = assocInsert st.lineages g L)
    ∧ (∀ x ∈ st2.shortests, x ∈ st.shortests ∨ x = g) := by
  simp only [scanStep, Bind.bind, Except.bind] at h
  split at h
  · simp at h
  · rename_i L hL
    simp only [Except.ok.injEq] at h
    rw [← h]
    refine ⟨⟨L, hL, rfl⟩, ?_⟩
    intro x hx
    simp only at hx
    split at hx
    · split at hx
      · simp only [List.mem_singleton] at hx
        exact Or.inr hx
      · rcases List.mem_append.mp hx with h1 | h2
        · exact Or.inl h1
        · simp only [List.mem_singleton] at h2
          exact Or.inr h2
    · split at hx
      · split at hx
        · simp only [List.mem_singleton] at hx
          exact Or.inr hx
        · rcases List.mem_append.mp hx with h1 | h2
          · exact Or.inl h1
          · simp only [List.mem_singleton] at h2
            exact Or.inr h2
      · exact Or.inl hx

theorem scanGo_facts (gs : List LC) (st st2 : ScanState)
    (h : scanGo st gs = .ok st2)
    (hinv : ∀ kv ∈ st.lineages, get_lineage kv.1 true = .ok kv.2) :
    (∀ kv ∈ st2.lineages, get_lineage kv.1 true = .ok kv.2)
    ∧ (∀ x ∈ st2.shortests, x ∈ st.shortests ∨ x ∈ gs) := by
  induction gs generalizing st with
  | nil =>
    simp only [scanGo, Except.ok.injEq] at h
    rw [← h]
    exact ⟨hinv, fun x hx => Or.inl hx⟩
  | cons g1 gs1 ih =>
    simp only [scanGo] at h
    cases hs : scanStep st g1 with
    | error e => rw [hs] at h; simp [Except.bind] at h
    | ok st1 =>
      rw [hs] at h
      simp only [Except.bind] at h
      obtain ⟨⟨L, hL, hins⟩, hshort⟩ := scanStep_facts st g1 st1 hs
      have hinv1 : ∀ kv ∈ st1.lineages, get_lineage kv.1 true = .ok kv.2 := by
        intro kv hkv
        rw [hins] at hkv
        rcases assocInsert_mem st.lineages g1 L kv hkv with h1 | h2
        · exact hinv kv h1
        · rw [h2]
          exact hL
      obtain ⟨hi2, hs2⟩ := ih st1 h hinv1
      refine ⟨hi2, ?_⟩
      intro x hx
      rcases hs2 x hx with h1 | h2
      · rcases hshort x h1 with h3 | h4
        · exact Or.inl h3
        · exact Or.inr (h4 ▸ List.mem_cons_self g1 gs1)
      · exact Or.inr (List.mem_cons_of_mem g1 h2)

theorem prepare_singleton (g : LC) (L : List Entry)
    (h : prepare_parents_list [g] = .ok L) : ∃ t, L = [⟨t, g⟩] := by
  simp only [prepare_parents_list, prepareGo, Bind.bind, Except.bind] at h
  split at h
  · simp at h
  · rename_i c hc
    simp only [List.not_mem_nil] at h
    rw [if_neg (by simp)] at h
    simp only [Except.ok.injEq] at h
    exact ⟨c.1, h.symm⟩

theorem get_lineage_self (g : LC) (L : List Entry) (h : get_lineage g true = .ok L) :
    ∃ e2 ∈ L, e2.gprn = g := by
  simp only [get_lineage, Bind.bind, Except.bind] at h
  split at h
  · simp at h
  · rename_i parents hp
    split at h
    · simp at h
    · rename_i selfL hs
      simp only [Except.ok.injEq] at h
      obtain ⟨t, hL⟩ := prepare_singleton g selfL hs
      refine ⟨⟨t, g⟩, ?_, rfl⟩
      rw [← h, hL]
      simp

theorem lcaBody_result (st : ScanState) (r : LC) (h : lcaBody st = .ok r)
    (hinv : ∀ kv ∈ st.lineages, get_lineage kv.1 true = .ok kv.2) :
    ∃ sh ∈ st.shortests, ∃ L, get_lineage sh true = .ok L ∧ ∃ e2 ∈ L, e2.gprn = r := by
  simp only [lcaBody] at h
  split at h
  · simp at h
  · rename_i sh tail hsh
    split at h
    · simp at h
    · rename_i shL others hpop
      split at h
      · simp at h
      · rename_i dflt hlast
        simp only [Except.ok.injEq] at h
        obtain ⟨hmem, hrest⟩ := assocPop_mem st.lineages sh shL others hpop
        have hlin : get_lineage sh true = .ok shL := hinv (sh, shL) hmem
        refine ⟨sh, by rw [hsh]; exact List.mem_cons_self sh tail, shL, hlin, ?_⟩
        cases hpick : shL.find? (fun e2 => others.any (fun kv => kv.2.any (fun x => decide (x = e2)))) with
        | some e2 =>
          rw [hpick] at h
          refine ⟨e2, List.mem_of_find?_eq_some hpick, ?_⟩
          simpa using h
        | none =>
          rw [hpick] at h
          refine ⟨dflt, getLast?_mem shL dflt hlast, ?_⟩
          simpa using h

theorem scanGo_all (gs : List LC) (st st2 : ScanState) (h : scanGo st gs = .ok st2) :
    ∀ g ∈ gs, ∃ L, get_lineage g true = .ok L := by
  induction gs generalizing st with
  | nil => simp
  | cons g1 gs1 ih =>
    simp only [scanGo] at h
    cases hs : scanStep st g1 with
    | error e => rw [hs] at h; simp [Except.bind] at h
    | ok st1 =>
      rw [hs] at h
      simp only [Except.bind] at h
      intro g hg
      rcases List.mem_cons.mp hg with h1 | h2
      · obtain ⟨⟨L, hL, _⟩, _⟩ := scanStep_facts st g1 st1 hs
        exact ⟨L, h1 ▸ hL⟩
      · exact ih st1 h g h2

theorem lca1_result (gs : List LC) (r : LC) (h : lca1 gs = .ok r)
    (hall : ∀ g ∈ gs, ∃ L, get_lineage g true = .ok L) :
    ∃ g ∈ gs, ∃ L, get_lineage g true = .ok L ∧ ∃ e2 ∈ L, e2.gprn = r := by
  simp only [lca1] at h
  split at h
  · cases gs with
    | nil => simp at h
    | cons g0 t =>
      simp only [Except.ok.injEq] at h
      subst h
      obtain ⟨L, hL⟩ := hall g0 (List.mem_cons_self g0 t)
      obtain ⟨e2, he2, hge⟩ := get_lineage_self g0 L hL
      exact ⟨g0, List.mem_cons_self g0 t, L, hL, e2, he2, hge⟩
  · simp only [Bind.bind, Except.bind] at h
    split at h
    · simp at h
    · rename_i st hscan
      obtain ⟨hinv2, hshort⟩ := scanGo_facts gs ⟨[], [], none⟩ st hscan (by simp)
      obtain ⟨sh, hshmem, L, hL, e2, he2, hge⟩ := lcaBody_result st r h hinv2
      rcases hshort sh hshmem with h1 | h2
      · simp at h1
      · exact ⟨sh, h2, L, hL, e2, he2, hge⟩

/-! ## Helpers for the GPRN round trip -/

theorem ph_slot_val (a : LC) : ((if a = [] then none else some a).getD []) = a := by
  by_cases ha : a = [] <;> simp [ha]

theorem joinChar_append_single (c : Char) (l : List LC) (x : LC) (hl : l ≠ []) :
    joinChar c (l ++ [x]) = joinChar c l ++ c :: x := by
  induction l with
  | nil => exact absurd rfl hl
  | cons y t ih =>
    cases t with
    | nil => simp [joinChar]
    | cons z t1 =>
      have h1 : joinChar c ((y :: z :: t1) ++ [x]) = y ++ c :: joinChar c ((z :: t1) ++ [x]) := rfl
      have h2 : joinChar c (y :: z :: t1) = y ++ c :: joinChar c (z :: t1) := rfl
      rw [h1, h2, ih (by simp)]
      simp

theorem joinChar_append_empties (c : Char) (l : List LC) (k : Nat) (hl : l ≠ []) :
    joinChar c (l ++ List.replicate k []) = joinChar c l ++ List.replicate k c := by
  induction k generalizing l with
  | zero => simp
  | succ m ih =>
    have h1 : l ++ List.replicate (m + 1) [] = (l ++ [[]]) ++ List.replicate m [] := by
      rw [List.replicate_succ, List.append_assoc]
      rfl
    rw [h1, ih (l ++ [[]]) (by simp), joinChar_append_single c l [] hl]
    rw [List.replicate_succ]
    simp

theorem joinChar_last_ne_colon (toks : List LC) (x : LC) (hx : x ≠ []) (hxc : ':' ∉ x) :
    (joinChar ':' (toks ++ [x])).getLast? ≠ some ':' := by
  have hlast : (joinChar ':' (toks ++ [x])).getLast? = x.getLast? := by
    cases toks with
    | nil => simp [joinChar]
    | cons y t =>
      rw [joinChar_append_single ':' (y :: t) x (by simp)]
      have h1 : joinChar ':' (y :: t) ++ ':' :: x = (joinChar ':' (y :: t) ++ [':']) ++ x := by
        simp
      rw [h1]
      exact getLast?_append_right _ x hx
  rw [hlast]
  intro hc
  exact hxc (getLast?_mem x ':' hc)

theorem rstrip_join_empties (toks : List LC) (x : LC) (k : Nat) (hx : x ≠ []) (hxc : ':' ∉ x) :
    rstripChar ':' (joinChar ':' ((toks ++ [x]) ++ List.replicate k []))
      = joinChar ':' (toks ++ [x]) := by
  rw [joinChar_append_empties ':' (toks ++ [x]) k (by simp),
    rstripChar_append_replicate,
    rstripChar_no_trail ':' _ (joinChar_last_ne_colon toks x hx hxc)]

/-! ## Claim theorems -/

/-- C2 counterexample: on the two-project input the code returns the
projects-tier ancestor `gprn:dev:svc::project`, not the service-level
`gprn:dev:svc` stated by the claim. -/
theorem c2_counterexample :
    lca [gA1, gB1] = .ok ("gprn:dev:svc::project".toList)
    ∧ "gprn:dev:svc::project".toList ≠ "gprn:dev:svc".toList :=
  ⟨by rfl, by decide⟩

/-- C2 (amended): `lca(["gprn:dev:svc::project:A@1","gprn:dev:svc::project:B@1"])`
returns exactly the string `"gprn:dev:svc::project"` — the deepest entry
common to both deep lineages is the projects tier, which both lineages
contain, one level below the service level claimed by the spec. -/
theorem c2_theorem : lca [gA1, gB1] = .ok ("gprn:dev:svc::project".toList) := by rfl

/-- C8: `get_parents("gprn:dev:resultsdb::artifact:GPA2:/file/one@3")` yields
exactly the four claimed parents in order: the path is dropped first, then
the version, then the resource-id, then the type-id. -/
theorem c8_theorem :
    (get_parents gArtifact false).map (fun l => l.map Entry.gprn)
      = .ok ["gprn:dev:resultsdb::project:GPA2@3".toList,
             "gprn:dev:resultsdb::project:GPA2".toList,
             "gprn:dev:resultsdb::project".toList,
             "gprn:dev:resultsdb".toList] := by rfl

/-- C5: the claim says `parse_key` raises `MalformedKey` when a captured
group is empty, and the source's own error-message scaffolding agrees, but
the `isinstance(..., str)` guards never fire: on `"p//m"` the code returns
successfully with an empty `version` component. -/
theorem c5_theorem :
    parse_key keyEmptyVersion = .ok ⟨"p".toList, [], "m".toList⟩ := by rfl

/-- C6 counterexample: for a type-id outside `{artifact, project, changelog}`
and a non-empty resource-id, `parse_resource_id` returns the string
unchanged, not the empty dict `{}` the claim states. -/
theorem c6_counterexample :
    parse_resource_id (some docTok) (some ("x".toList)) = .ok (.rstr ("x".toList))
    ∧ (.ok (.rstr ("x".toList)) : Except GErr ResId) ≠ .ok (.rdict emptyDict) := by
  exact ⟨by rfl, by decide⟩

/-- C6 (amended): for every type-id outside `{artifact, project, changelog}`
a non-empty resource-id is returned unchanged as a string; the empty dict is
returned only for a falsy (absent or empty) resource-id, for every type-id. -/
theorem c6_theorem :
    (∀ t : Option LC, ∀ r : LC, r ≠ [] → t ≠ some artifactTok → t ≠ some projectTok →
      t ≠ some changelogTok → parse_resource_id t (some r) = .ok (.rstr r))
    ∧ (∀ t : Option LC, parse_resource_id t none = .ok (.rdict emptyDict)
        ∧ parse_resource_id t (some []) = .ok (.rdict emptyDict)) := by
  constructor
  · intro t r hr ha hp hc
    simp only [parse_resource_id, if_neg hr, if_neg ha]
    rw [if_neg (by
      intro hd
      rcases hd with hd1 | hd2
      · exact hp hd1
      · exact hc hd2)]
  · intro t
    exact ⟨rfl, rfl⟩

/-- C6 witness. -/
theorem c6_witness :
    parse_resource_id (some backupTok) (some ("y".toList)) = .ok (.rstr ("y".toList))
    ∧ parse_resource_id (some docTok) none = .ok (.rdict emptyDict) :=
  ⟨c6_theorem.1 (some backupTok) ("y".toList) (by decide) (by decide) (by decide) (by decide),
   (c6_theorem.2 (some docTok)).1⟩

/-- C9 counterexample: `generate` mutates a dict whose environment is
`"prd"`, setting the field to the empty string, so the argument is not left
unchanged. -/
theorem c9_counterexample :
    (generate ⟨prdTok, some ("svc".toList), none, none, none⟩).2
      ≠ ⟨prdTok, some ("svc".toList), none, none, none⟩ := by decide

/-- C9 (amended): the only mutation `generate` performs on its argument is
the in-place normalisation of a `"prd"` environment to the empty string; a
dict whose environment is not `"prd"` is left unchanged, and the mutation is
idempotent (a second call on the post-state changes nothing and returns the
same result). -/
theorem c9_theorem : ∀ dg : ParsedGPRN,
    ((generate dg).2 = if dg.environment = prdTok then { dg with environment := [] } else dg)
    ∧ (dg.environment ≠ prdTok → (generate dg).2 = dg)
    ∧ (generate ((generate dg).2)).1 = (generate dg).1
    ∧ (generate ((generate dg).2)).2 = (generate dg).2 := by
  intro dg
  obtain ⟨env, sv, ph, tid, rid⟩ := dg
  by_cases he : env = prdTok
  · subst he
    have hne : ¬(([] : LC) = prdTok) := by decide
    cases sv with
    | none =>
      exact ⟨by simp [generate], fun hc => absurd rfl hc,
        by simp [generate, hne], by simp [generate, hne]⟩
    | some svc =>
      exact ⟨by simp [generate], fun hc => absurd rfl hc,
        by simp [generate, hne], by simp [generate, hne]⟩
  · cases sv with
    | none =>
      exact ⟨by simp [generate, he], fun _ => by simp [generate, he],
        by simp [generate, he], by simp [generate, he]⟩
    | some svc =>
      exact ⟨by simp [generate, he], fun _ => by simp [generate, he],
        by simp [generate, he], by simp [generate, he]⟩

/-- C9 witness. -/
theorem c9_witness :
    (generate ⟨"dev".toList, some ("svc".toList), none, none, none⟩).2
      = ⟨"dev".toList, some ("svc".toList), none, none, none⟩ :=
  ( c9_theorem ⟨"dev".toList, some ("svc".toList), none, none, none⟩).2.1 (by decide)

/-- C7 counterexample: on a project GPRN whose resource-id contains seven
`@` signs the accumulated parent chain has 11 entries while the input has
only 6 colon-delimited components, so the number of recursive steps is not
bounded by the component count. -/
theorem c7_counterexample :
    (splitOnColon gManyAts).length = 6
    ∧ (gp_chain gManyAts true).map List.length = .ok 11
    ∧ ¬(11 ≤ 6) := by
  exact ⟨by rfl, by rfl, by decide⟩

/-- C7 (amended): the fuelled recursion of `get_parents` always terminates —
it is independent of the fuel once the fuel exceeds the input length — and
the accumulated chain is bounded by the input string length (not by the
component count).  The claimed stop conditions (deep mode: no colon left;
non-deep mode: fewer than 4 colon-separated components) govern the recursive
calls, but an initial call that already satisfies them does not return a
list at all: `prepare_parents_list(None)` raises an uncaught `TypeError`. -/
theorem c7_theorem :
    (∀ g deep l, gp_chain g deep = .ok l → l.length ≤ g.length)
    ∧ (∀ g deep n, g.length < n → gpFuel n g deep = gp_chain g deep)
    ∧ (∀ g : LC, ':' ∉ g → get_parents g true = .error .typeError)
    ∧ (∀ g : LC, (splitOnColon g).length < 4 → get_parents g false = .error .typeError) := by
  refine ⟨?_, ?_, ?_, ?_⟩
  · intro g deep l h
    exact gpFuel_length _ g deep l h
  · intro g deep n hn
    exact gpFuel_irrelevant n (g.length + 1) g deep hn (by omega)
  · intro g hc
    simp only [get_parents]
    rw [if_pos (Or.inl ⟨by simp, hc⟩)]
  · intro g hc
    simp only [get_parents]
    rw [if_pos (Or.inr ⟨by simp, hc⟩)]

/-- C7 witness. -/
theorem c7_witness : get_parents ("gprn".toList) true = .error .typeError :=
  c7_theorem.2.2.1 ("gprn".toList) (by decide)

/-- C1 counterexample: three inputs sharing service `svc` and environment
`dev`.  The algorithm keeps an entry present in *any* other lineage, not in
all of them, so it returns `gprn:dev:svc::project:A`, which does not occur
in the deep lineage of the third input `gprn:dev:svc::project:B@1`. -/
theorem c1_counterexample :
    lca [gA1, gA2, gB1] = .ok ("gprn:dev:svc::project:A".toList)
    ∧ (get_lineage gB1 true).toOption.isSome = true
    ∧ ((get_lineage gB1 true).toOption.getD []).all
        (fun e2 => decide (e2.gprn ≠ "gprn:dev:svc::project:A".toList)) = true :=
  ⟨by rfl, by rfl, by rfl⟩

/-- C1 (amended): for every input list with at least two distinct values on
which `lca` returns normally, the returned GPRN appears in the deep lineage
of at least one element of the list (the chosen shortest-lineage input); the
original claim that it appears in every element's lineage is false. -/
theorem c1_theorem (gprns : List LC) (r : LC)
    (hdedup : (pyDedup gprns).length ≠ 1) (h : lca gprns = .ok r) :
    ∃ g ∈ gprns, ∃ L, get_lineage g true = .ok L ∧ ∃ e2 ∈ L, e2.gprn = r := by
  simp only [lca] at h
  rw [if_neg hdedup] at h
  simp only [Bind.bind, Except.bind] at h
  split at h
  · simp at h
  · rename_i st hscan
    obtain ⟨hinv2, hshort⟩ := scanGo_facts gprns ⟨[], [], none⟩ st hscan (by simp)
    have hall := scanGo_all gprns ⟨[], [], none⟩ st hscan
    split at h
    · have hall2 : ∀ g ∈ st.shortests, ∃ L, get_lineage g true = .ok L := by
        intro g hg
        rcases hshort g hg with h1 | h2
        · simp at h1
        · exact hall g h2
      obtain ⟨g, hgmem, rest⟩ := lca1_result st.shortests r h hall2
      rcases hshort g hgmem with h1 | h2
      · simp at h1
      · exact ⟨g, h2, rest⟩
    · obtain ⟨sh, hshmem, rest⟩ := lcaBody_result st r h hinv2
      rcases hshort sh hshmem with h1 | h2
      · simp at h1
      · exact ⟨sh, h2, rest⟩

/-- C1 witness. -/
theorem c1_witness :
    ∃ g ∈ [gA1, gB1], ∃ L, get_lineage g true = .ok L
      ∧ ∃ e2 ∈ L, e2.gprn = "gprn:dev:svc::project".toList :=
  c1_theorem [gA1, gB1] ("gprn:dev:svc::project".toList) (by decide) (by rfl)

/-- C4 counterexample: the two-token short form round trip fails — parsing
`gprn:dev` succeeds with no service, and `generate` then raises `GPRNError`
instead of reproducing the input. -/
theorem c4_counterexample :
    parse ("gprn:dev".toList) = .ok ⟨"dev".toList, none, none, none, none⟩
    ∧ gprnRoundTrip ("gprn:dev".toList) = .error .gprnError :=
  ⟨by rfl, by rfl⟩

/-- C4 (amended): `generate(parse(g)) = g` for every canonical GPRN with at
least three tokens — prefix `gprn`, single colon-free tokens, environment
non-empty and not `prd`, service non-empty, last token non-empty, and a
non-empty type-id whenever a resource-id is present.  The two-token short
form `gprn:<env>` claimed by the spec fails: `generate` needs a service. -/
theorem c4_theorem (e s : LC) (rest : List LC) (hrlen : rest.length ≤ 3)
    (hcf : ∀ t ∈ (e :: s :: rest), ':' ∉ t)
    (he : e ≠ []) (hep : e ≠ prdTok) (hs : s ≠ [])
    (hlast : ∀ t, rest.getLast? = some t → t ≠ [])
    (htid : ∀ p1 t r2 rest2, rest = p1 :: t :: r2 :: rest2 → t ≠ []) :
    gprnRoundTrip (joinColon (gprnTok :: e :: s :: rest))
      = .ok (joinColon (gprnTok :: e :: s :: rest)) := by
  have hsplit : splitOnColon (joinColon (gprnTok :: e :: s :: rest))
      = gprnTok :: e :: s :: rest := by
    rw [splitOnColon, joinColon]
    exact splitChar_joinChar ':' _ (by simp) (by
      intro x hx
      rcases List.mem_cons.mp hx with h1 | h2
      · rw [h1]; decide
      · exact hcf x h2)
  simp only [gprnRoundTrip, parse, hsplit, Bind.bind, Except.bind]
  have hse : ':' ∉ s := hcf s (by simp)
  match rest, hrlen with
  | [], _ =>
    have hpp : parseParts [gprnTok, e, s]
        = .ok ⟨(if e = [] then prdTok else e), some s, none, none, none⟩ := by
      simp only [parseParts]
      rw [if_neg (fun hc => hc rfl), if_neg hs]
    rw [hpp]
    show (generate ⟨(if e = [] then prdTok else e), some s, none, none, none⟩).1
        = .ok (joinColon [gprnTok, e, s])
    rw [generate_ok _ s rfl]
    congr 1
    simp only [if_neg he, if_neg hep, Option.getD_none]
    rw [show ([gprnTok, e, s, ([] : LC), [], []] : List LC)
        = ([gprnTok, e] ++ [s]) ++ List.replicate 3 ([] : LC) from rfl]
    rw [show ([gprnTok, e, s] : List LC) = [gprnTok, e] ++ [s] from rfl]
    simp only [joinColon]
    exact rstrip_join_empties [gprnTok, e] s 3 hs hse
  | [p1], _ =>
    have hp1 : p1 ≠ [] := hlast p1 rfl
    have hp1c : ':' ∉ p1 := hcf p1 (by simp)
    have hpp : parseParts [gprnTok, e, s, p1]
        = .ok ⟨(if e = [] then prdTok else e), some s,
               (if p1 = [] then none else some p1), none, none⟩ := by
      simp only [parseParts]
      rw [if_neg (fun hc => hc rfl), if_neg hs]
    rw [hpp]
    show (generate ⟨(if e = [] then prdTok else e), some s,
        (if p1 = [] then none else some p1), none, none⟩).1
        = .ok (joinColon [gprnTok, e, s, p1])
    rw [generate_ok _ s rfl]
    congr 1
    simp only [if_neg he, if_neg hep, Option.getD_none, ph_slot_val]
    rw [show ([gprnTok, e, s, p1, ([] : LC), []] : List LC)
        = ([gprnTok, e, s] ++ [p1]) ++ List.replicate 2 ([] : LC) from rfl]
    rw [show ([gprnTok, e, s, p1] : List LC) = [gprnTok, e, s] ++ [p1] from rfl]
    simp only [joinColon]
    exact rstrip_join_empties [gprnTok, e, s] p1 2 hp1 hp1c
  | [p1, t1], _ =>
    have ht1 : t1 ≠ [] := hlast t1 rfl
    have ht1c : ':' ∉ t1 := hcf t1 (by simp)
    have hpp : parseParts [gprnTok, e, s, p1, t1]
        = .ok ⟨(if e = [] then prdTok else e), some s,
               (if p1 = [] then none else some p1),
               (if t1 = [] then none else some t1), none⟩ := by
      simp only [parseParts]
      rw [if_neg (fun hc => hc rfl), if_neg hs]
    rw [hpp]
    show (generate ⟨(if e = [] then prdTok else e), some s,
        (if p1 = [] then none else some p1),
        (if t1 = [] then none else some t1), none⟩).1
        = .ok (joinColon [gprnTok, e, s, p1, t1])
    rw [generate_ok _ s rfl]
    congr 1
    simp only [if_neg he, if_neg hep, Option.getD_none, ph_slot_val]
    rw [show ([gprnTok, e, s, p1, t1, ([] : LC)] : List LC)
        = ([gprnTok, e, s, p1] ++ [t1]) ++ List.replicate 1 ([] : LC) from rfl]
    rw [show ([gprnTok, e, s, p1, t1] : List LC) = [gprnTok, e, s, p1] ++ [t1] from rfl]
    simp only [joinColon]
    exact rstrip_join_empties [gprnTok, e, s, p1] t1 1 ht1 ht1c
  | [p1, t1, r1], _ =>
    have hr1 : r1 ≠ [] := hlast r1 rfl
    have hr1c : ':' ∉ r1 := hcf r1 (by simp)
    have ht1 : t1 ≠ [] := htid p1 t1 r1 [] rfl
    have hpp : parseParts [gprnTok, e, s, p1, t1, r1]
        = .ok ⟨(if e = [] then prdTok else e), some s,
               (if p1 = [] then none else some p1),
               (if t1 = [] then none else some t1), some (joinColon [r1])⟩ := by
      simp only [parseParts]
      rw [if_neg (fun hc => hc rfl), if_neg hs]
      rw [if_neg (fun hc : joinColon [r1] = [] => hr1 hc)]
      rw [if_neg (by rw [if_neg ht1]; simp : ¬((if t1 = [] then none else some t1) = (none : Option LC)))]
    rw [hpp]
    show (generate ⟨(if e = [] then prdTok else e), some s,
        (if p1 = [] then none else some p1),
        (if t1 = [] then none else some t1), some (joinColon [r1])⟩).1
        = .ok (joinColon [gprnTok, e, s, p1, t1, r1])
    rw [generate_ok _ s rfl]
    congr 1
    simp only [if_neg he, if_neg hep, Option.getD_some, ph_slot_val]
    rw [show joinColon [r1] = r1 from rfl]
    rw [show ([gprnTok, e, s, p1, t1, r1] : List LC)
        = ([gprnTok, e, s, p1, t1] ++ [r1]) ++ List.replicate 0 ([] : LC) from rfl]
    simp only [joinColon]
    rw [rstrip_join_empties [gprnTok, e, s, p1, t1] r1 0 hr1 hr1c]
    simp

/-- C4 witness. -/
theorem c4_witness :
    gprnRoundTrip (joinColon [gprnTok, "dev".toList, "svc".toList])
      = .ok (joinColon [gprnTok, "dev".toList, "svc".toList]) :=
  c4_theorem ("dev".toList) ("svc".toList) [] (by decide) (by decide) (by decide)
    (by decide) (by decide) (by decide) (by intro p1 t r2 rest2 hc; cases hc)

/-- C3 counterexample: `"a:b@1@2"` is a well-formed AID (project `a`, path
`b@1`, version `2`), yet `pack_id(unpack_id(s))` returns `"a:b@1"`: the lazy
regex stops at the first `@` followed by a word character, and the missing
end anchor silently drops the rest. -/
theorem c3_counterexample :
    (aidAmbiguous = "a".toList ++ ':' :: "b@1".toList ++ '@' :: "2".toList
      ∧ "a".toList ≠ [] ∧ "b@1".toList ≠ [] ∧ "2".toList ≠ []
      ∧ ("2".toList).all wordChar = true)
    ∧ aidRoundTrip aidAmbiguous = .ok ("a:b@1".toList)
    ∧ aidRoundTrip aidAmbiguous ≠ .ok aidAmbiguous := by
  refine ⟨by decide, by rfl, by decide⟩

/-- C3 (amended): the AID round trip `pack_id(unpack_id(s)) = s` holds for
every well-formed `s = project_id:path@version` in which `path` contains no
`@` and no newline, `project_id` contains no `:` and no newline and is not
the literal `gprn`, and `version` is a non-empty run of `[\w.-]`
characters.  The claim's assertion that it survives `@` inside `path` is
refuted by the counterexample; a newline inside `project_id` or `path`
makes the regex fail (`.` does not match `\n`), raising `MalformedID`. -/
theorem c3_theorem (p pa v : LC) (hp : p ≠ []) (hpa : pa ≠ []) (hv : v ≠ [])
    (hpc : ':' ∉ p) (hpn : '\n' ∉ p) (hpan : '\n' ∉ pa) (hpaat : '@' ∉ pa)
    (hw : ∀ c ∈ v, wordChar c = true) (hg : p ≠ gprnTok) :
    aidRoundTrip (p ++ ':' :: pa ++ '@' :: v) = .ok (p ++ ':' :: pa ++ '@' :: v) := by
  cases v with
  | nil => exact absurd rfl hv
  | cons w v1 =>
    have hw1 : wordChar w = true := hw w (by simp)
    have hform : p ++ ':' :: pa ++ '@' :: w :: v1 = p ++ ':' :: (pa ++ '@' :: w :: v1) := by
      simp
    rw [hform]
    have hpre : (("gprn:".toList).isPrefixOf (p ++ ':' :: (pa ++ '@' :: w :: v1))) = false := by
      by_contra hc
      have hc2 : ("gprn:".toList) <+: (p ++ ':' :: (pa ++ '@' :: w :: v1)) := by
        have : (("gprn:".toList).isPrefixOf (p ++ ':' :: (pa ++ '@' :: w :: v1))) = true := by
          simpa using hc
        exact List.isPrefixOf_iff_prefix.mp this
      obtain ⟨t, ht⟩ := hc2
      have h1 : splitFirstAt ':' (p ++ ':' :: (pa ++ '@' :: w :: v1))
          = some (p, pa ++ '@' :: w :: v1) :=
        splitFirstAt_append ':' p (pa ++ '@' :: w :: v1) hpc
      have h2 : splitFirstAt ':' (p ++ ':' :: (pa ++ '@' :: w :: v1)) = some (gprnTok, t) := by
        rw [← ht]
        show splitFirstAt ':' (gprnTok ++ ':' :: t) = some (gprnTok, t)
        exact splitFirstAt_append ':' gprnTok t (by decide)
      rw [h1] at h2
      simp only [Option.some.injEq, Prod.mk.injEq] at h2
      exact hg h2.1
    have htk : List.takeWhile wordChar (w :: v1) = w :: v1 :=
      takeWhile_all wordChar (w :: v1) hw
    have hT : (p ++ ':' :: (pa ++ '@' :: w :: v1)).takeWhile notNL
        = p ++ ':' :: (pa ++ '@' :: w :: v1) := by
      apply takeWhile_all
      intro c hcmem
      have hcn : c ≠ '\n' := by
        rcases List.mem_append.mp hcmem with h1 | h2
        · intro he
          exact hpn (he ▸ h1)
        · rcases List.mem_cons.mp h2 with rfl | h3
          · decide
          · rcases List.mem_append.mp h3 with h4 | h5
            · intro he
              exact hpan (he ▸ h4)
            · rcases List.mem_cons.mp h5 with rfl | h6
              · decide
              · have hcw : wordChar c = true := hw c h6
                intro he
                rw [he] at hcw
                exact absurd hcw (by decide)
      simp [notNL, hcn]
    have hu : unpack_id (p ++ ':' :: (pa ++ '@' :: w :: v1)) = .ok ⟨p, pa, w :: v1⟩ := by
      have hs := splitFirstAt_append ':' p (pa ++ '@' :: w :: v1) hpc
      have hf := findAtSep_append pa w v1 hpaat hw1
      simp only [unpack_id, hpre, Bool.false_eq_true, if_false, hT, hs, hf, htk]
      rw [if_neg (by
        intro hc
        rcases hc with hc1 | hc2 | hc3
        · exact hp hc1
        · exact hpa hc2
        · exact hv hc3)]
    simp only [aidRoundTrip, Except.bind, hu, pack_id]
    simp

/-- C3 witness. -/
theorem c3_witness :
    aidRoundTrip ("a".toList ++ ':' :: "b".toList ++ '@' :: "1".toList)
      = .ok ("a".toList ++ ':' :: "b".toList ++ '@' :: "1".toList) :=
  c3_theorem ("a".toList) ("b".toList) ("1".toList) (by decide) (by decide) (by decide)
    (by decide) (by decide) (by decide) (by decide) (by decide) (by decide)

/-- C10 (confirmed): at the two-token short form `gprn:<tok>`, `parse`
returns the token verbatim as environment — even the empty string, not the
documented default `prd` — with all the other fields `None`, raising no
error for the missing mandatory service; whereas in any input splitting
into three or more colon-separated tokens, an empty environment token
yields environment `prd`. -/
theorem c10_theorem :
    (∀ t : LC, ':' ∉ t → parse ("gprn:".toList ++ t) = .ok ⟨t, none, none, none, none⟩)
    ∧ (∀ s : LC, 3 ≤ (splitOnColon s).length → (splitOnColon s).get? 1 = some []
        → ∀ pd : ParsedGPRN, parse s = .ok pd → pd.environment = prdTok) := by
  constructor
  · intro t ht
    show parseParts (splitOnColon ("gprn:".toList ++ t)) = _
    have h : splitOnColon ("gprn:".toList ++ t) = [gprnTok, t] := by
      show splitChar ':' (gprnTok ++ ':' :: t) = [gprnTok, t]
      rw [splitChar_append ':' gprnTok t (by decide), splitChar_no_sep ':' t ht]
    rw [h]
    rfl
  · intro s hlen h1 pd hp
    simp only [parse] at hp
    cases hsp : splitOnColon s with
    | nil =>
      rw [hsp] at hlen
      simp at hlen
    | cons p0 rest =>
      rw [hsp] at hlen h1 hp
      cases rest with
      | nil => simp at hlen
      | cons e rest1 =>
        cases rest1 with
        | nil => simp at hlen
        | cons s1 restC =>
          have he : e = [] := by simpa using h1
          subst he
          cases restC with
          | nil =>
            simp only [parseParts] at hp
            split at hp
            · simp at hp
            · split at hp
              · simp at hp
              · simp only [Except.ok.injEq] at hp
                rw [← hp]
                simp
          | cons a restD =>
            cases restD with
            | nil =>
              simp only [parseParts] at hp
              split at hp
              · simp at hp
              · split at hp
                · simp at hp
                · simp only [Except.ok.injEq] at hp
                  rw [← hp]
                  simp
            | cons b rest5 =>
              cases rest5 with
              | nil =>
                simp only [parseParts] at hp
                split at hp
                · simp at hp
                · split at hp
                  · simp at hp
                  · simp only [Except.ok.injEq] at hp
                    rw [← hp]
                    simp
              | cons r0 rest6 =>
                simp only [parseParts] at hp
                split at hp
                · simp at hp
                · split at hp
                  · simp at hp
                  · split at hp
                    · simp only [Except.ok.injEq] at hp
                      rw [← hp]
                      simp
                    · split at hp
                      · simp at hp
                      · split at hp
                        · simp at hp
                        · simp only [Except.ok.injEq] at hp
                          rw [← hp]
                          simp

/-- C10 witness. -/
theorem c10_witness :
    parse ("gprn:".toList ++ "e".toList) = .ok ⟨"e".toList, none, none, none, none⟩
    ∧ (⟨prdTok, some ("svc".toList), none, none, none⟩ : ParsedGPRN).environment = prdTok :=
  ⟨c10_theorem.1 ("e".toList) (by decide),
   c10_theorem.2 ("gprn::svc".toList) (by decide) (by decide)
     ⟨prdTok, some ("svc".toList), none, none, none⟩ (by rfl)⟩

end ArtifactDB
